import Mathlib

/-!
Shallow embedding of the Wiza → Dynamics 365 import scripts
(`dynamicsContacts.py`, `dynamicsAccountsEnrich.py`, `dynamicsAccountsJobs.py`,
`toDynamics.py`, `accountExport.py`, `leadsExtract.py`) and proofs about the
string-normalisation, deduplication and row-loop logic.

Conventions used throughout:
* Python strings are Lean `String`s, usually manipulated as `List Char`;
  cell values of the normalised dataframes (`df.where(pd.notnull(df), None)`)
  are `Option String` (contacts / leads files) or `PyVal` (job files, whose
  columns mix strings, floats and dates).
* HTTP calls are oracles (`Net`, `TDNet`, `JNet` records of functions): a GET
  lookup is a function returning the matched id (or `none`), a POST returning
  `Except`, with `error` standing for a non-2xx response (the sources raise
  `RuntimeError` there).
* Python exceptions are `Except` values; a `try`/`except` is a `match` on
  them.  Mutation of dicts/sets is explicit state passing.
-/

set_option autoImplicit false

abbrev Chars := List Char

def exceptDecEq {ε α : Type} [DecidableEq ε] [DecidableEq α] (a b : Except ε α) :
    Decidable (a = b) :=
  match a, b with
  | .ok x, .ok y =>
    if h : x = y then isTrue (by rw [h]) else isFalse (fun g => h (Except.ok.inj g))
  | .error x, .error y =>
    if h : x = y then isTrue (by rw [h]) else isFalse (fun g => h (Except.error.inj g))
  | .ok _, .error _ => isFalse (fun g => Except.noConfusion g)
  | .error _, .ok _ => isFalse (fun g => Except.noConfusion g)

instance {ε α : Type} [DecidableEq ε] [DecidableEq α] : DecidableEq (Except ε α) :=
  exceptDecEq

/-! ### Python string primitives -/

/-- Python whitespace (`str.strip`, `str.split`, regex `\s`) for the
characters that can occur in this code base: ASCII whitespace, vertical tab,
form feed, and the non-breaking space U+00A0 that `normalize_name`
explicitly replaces. -/
def pyWs (c : Char) : Bool :=
  c == ' ' || c == '\t' || c == '\n' || c == '\r' ||
  c == Char.ofNat 11 || c == Char.ofNat 12 || c == Char.ofNat 160

/-- `s.lstrip()` on characters. -/
def lstripC (l : Chars) : Chars := l.dropWhile pyWs

/-- `s.rstrip()` on characters. -/
def rstripC (l : Chars) : Chars := (l.reverse.dropWhile pyWs).reverse

/-- `s.strip()` on characters. -/
def stripC (l : Chars) : Chars := lstripC (rstripC l)

/-- `s.lower()` on characters (all strings in this code base are handled
per-character; `Char.toLower` matches Python on ASCII, and the few non-ASCII
characters appearing in the sources are unaffected by either). -/
def toLowerC (l : Chars) : Chars := l.map Char.toLower

/-- Helper for `wordsC`: accumulates the current word reversed. -/
def wordsAux (acc : Chars) : Chars → List Chars
  | [] => if acc.isEmpty then [] else [acc.reverse]
  | c :: cs =>
    if pyWs c then
      if acc.isEmpty then wordsAux [] cs else acc.reverse :: wordsAux [] cs
    else wordsAux (c :: acc) cs

/-- Python `s.split()`: split on whitespace runs, dropping empty pieces. -/
def wordsC (l : Chars) : List Chars := wordsAux [] l

/-- `" ".join(ws)` on character lists. -/
def joinSpace : List Chars → Chars
  | [] => []
  | [w] => w
  | w :: w2 :: ws => w ++ ' ' :: joinSpace (w2 :: ws)

/-- `re.sub(r"\s+", " ", s)`: replace every whitespace run by one space. -/
def squeezeWs : Chars → Chars
  | [] => []
  | [c] => if pyWs c then [' '] else [c]
  | a :: b :: t =>
    if pyWs a then
      (if pyWs b then squeezeWs (b :: t) else ' ' :: squeezeWs (b :: t))
    else a :: squeezeWs (b :: t)

/-- `s.endswith(suf)`. -/
def endsWithC (s suf : Chars) : Bool :=
  suf.length ≤ s.length && decide (s.drop (s.length - suf.length) = suf)

/-- `s[:-n]` for `n ≤ len(s)` (used to remove a matched trailing piece). -/
def dropSufC (s : Chars) (n : Nat) : Chars := s.take (s.length - n)

/-- The part of `l` after the last occurrence of `c`
(`s.split(c)[-1]`; the whole list when `c` does not occur). -/
def afterLastC (c : Char) (l : Chars) : Chars :=
  (l.reverse.takeWhile (fun d => d != c)).reverse

/-- `s.startswith(pre)`. -/
def startsWithC (s pre : Chars) : Bool := decide (s.take pre.length = pre)

/-- `c in s` for a single character. -/
def containsC (c : Char) (l : Chars) : Bool := l.contains c

/-- Python substring test `pat in s`. -/
def isSubC (pat : Chars) : Chars → Bool
  | [] => pat.isEmpty
  | c :: cs => startsWithC (c :: cs) pat || isSubC pat cs

/-! ### dynamicsAccountsEnrich.normalize_name

The source file is stored in a doubly-encoded form: the bytes of the regex
character classes decode (as the Python interpreter reads the file) to the
literal characters `â`, `€`, `™` (for the intended `’`) and `â`, `€`, `“`,
`”` (for the intended `–`/`—`).  The embedding uses exactly the characters
the interpreter sees. -/

/-- The characters removed by `re.sub(r"[.,'â€™]", "", s)`
(the apostrophe is written as `Char.ofNat 39`). -/
def enrichPunct : Chars := ['.', ',', Char.ofNat 39, 'â', '€', '™']

/-- The dash class of the trailing-region regex `[-â€“â€”]`. -/
def enrichDashes : Chars := ['-', 'â', '€', '“', '”']

/-- The alternatives of `(us|usa|u\.s\.a\.|north america|na)` in source
order. -/
def regionalAlts : List Chars :=
  ["us".data, "usa".data, "u.s.a.".data, "north america".data, "na".data]

/-- The legal-suffix list of `normalize_name`, in source order, each with its
leading space. -/
def legalSufs : List Chars :=
  [" inc".data, " inc.".data, " incorporated".data,
   " llc".data, " llc.".data,
   " ltd".data, " ltd.".data, " limited".data,
   " co".data, " co.".data, " company".data,
   " corp".data, " corp.".data, " corporation".data,
   " plc".data,
   " gmbh".data,
   " s.a.".data, " sa".data]

/-- `s.replace("&", " and ")`. -/
def ampExpand (l : Chars) : Chars :=
  l.flatMap (fun c => if c == '&' then " and ".data else [c])

/-- Lines 52–58 of normalize_name: `name.strip().lower().replace(" ", " ")`,
`&` → `" and "`, punctuation removal. -/
def normPre (name : String) : Chars :=
  (ampExpand
    (((stripC name.data).map Char.toLower).map
      (fun c => if c == Char.ofNat 160 then ' ' else c))).filter
    (fun c => !(enrichPunct.contains c))

/-- Line 61: `re.sub(r"\s+", " ", s).strip()`. -/
def normCollapsed (name : String) : Chars :=
  lstripC (rstripC (squeezeWs (normPre name)))

/-- Line 64: `re.sub(r"\s*[-â€“â€”]\s*(us|usa|u\.s\.a\.|north america|na)$", "", s)`.
The anchored pattern matches exactly when the string ends with one of the
alternatives immediately preceded (modulo whitespace) by a dash-class
character; the substitution removes the matched tail. -/
def regionalTry : List Chars → Chars → Chars
  | [], s => s
  | alt :: rest, s =>
    if endsWithC s alt then
      let u := rstripC (dropSufC s alt.length)
      match u.getLast? with
      | some d =>
        if enrichDashes.contains d then rstripC (dropSufC u 1) else regionalTry rest s
      | none => regionalTry rest s
    else regionalTry rest s

/-- Line 64 including its final `.strip()`. -/
def normRegional (name : String) : Chars :=
  lstripC (rstripC (regionalTry regionalAlts (normCollapsed name)))

/-- One pass of the inner `for suf in suffixes` loop: each matching suffix is
stripped (then `rstrip`ped) and the pass continues on the shortened string;
the second component is the `changed` flag. -/
def stripPass : List Chars → Chars → Bool → Chars × Bool
  | [], s, ch => (s, ch)
  | suf :: rest, s, ch =>
    if endsWithC s suf then
      stripPass rest (rstripC (dropSufC s suf.length)) true
    else stripPass rest s ch

/-- The `while changed and s:` loop, with explicit fuel.  A changing pass
strictly shortens the string, so `length + 1` passes always reach the
source's fixpoint. -/
def stripLoop : Nat → Chars → Chars
  | 0, s => s
  | n + 1, s =>
    if s.isEmpty then s
    else
      match stripPass legalSufs s false with
      | (s', true) => stripLoop n s'
      | (_, false) => s

/-- dynamicsAccountsEnrich.normalize_name (for string input; the source
returns `""` for non-string input before any of this runs). -/
def normalizeNameC (name : String) : Chars :=
  lstripC (rstripC (squeezeWs
    (stripLoop ((normRegional name).length + 1) (normRegional name))))

def normalize_name (name : String) : String := String.mk (normalizeNameC name)

/-- The listed legal-suffix words, as the claim reads them (no leading
space, no dotted variants: the dotted forms of the source list can never
match because line 58 has already removed every period). -/
def legalSufWords : List String :=
  ["inc", "incorporated", "llc", "ltd", "limited", "co", "company",
   "corp", "corporation", "plc", "gmbh", "sa"]

/-- The last whitespace-separated word of a string (empty when none). -/
def lastWordC (s : Chars) : Chars :=
  (s.reverse.takeWhile (fun c => !pyWs c)).reverse

/-- Claim-side reading of C3: the normalised name ends with a listed legal
suffix as its trailing word. -/
def endsWithListedSuffixWord (s : String) : Bool :=
  legalSufWords.contains (String.mk (lastWordC s.data))

/-! ### dynamicsContacts.py: utilities -/

/-- dynamicsContacts.sanitize, restricted to optional strings.  The dataframe
is normalised with `.astype(object).where(pd.notnull(df), None)`, so cells of
the text columns used by this file are `str` or `None`; the float-NaN branch
of the source collapses into `none` here. -/
def sanitize (v : Option String) : Option String :=
  match v with
  | none => none
  | some s =>
    let t := String.mk (stripC s.data)
    if toLowerC t.data = "nan".data then none else some t

/-- Python truthiness of an optional string (`None` and `""` are falsy). -/
def pyTruthy (v : Option String) : Bool :=
  match v with
  | none => false
  | some s => !s.isEmpty

/-- The collapse part of `_norm_name`:
`" ".join(str(name).strip().lower().split())`. -/
def normNameStr (s : String) : String :=
  String.mk (joinSpace (wordsC (toLowerC (stripC s.data))))

/-- dynamicsContacts._norm_name (source name carries a leading underscore). -/
def norm_name (v : Option String) : Option String :=
  match v with
  | none => none
  | some s => if s.isEmpty then none else some (normNameStr s)

/-- The `\t`/`\r`/`\n` removal `urllib.parse.urlsplit` performs before
parsing its argument. -/
def urlClean (l : Chars) : Chars :=
  l.filter (fun c => !(c == '\t' || c == '\r' || c == '\n'))

/-- `urllib.parse.urlparse(t).hostname` for a string `t` that starts with
`http://` or `https://` — the only way `_extract_domain` builds its
argument.  The netloc is the piece between the `//` and the first `/`, `?`
or `#`; the hostname drops the userinfo (up to the last `@`) and the port
(from the first `:`), lowercases, and is `None` when empty.  A netloc
containing brackets is modelled as a parse failure: urlsplit raises
ValueError on unbalanced brackets, and on CPython ≥ 3.11 also on any
bracketed host that is not a valid IPv6/vfuture literal; `_extract_domain`
catches these and returns None.  (Valid bracketed IPv6 literals, which the
model also sends to `none`, cannot occur in website/email columns.) -/
def urlHostname (t : Chars) : Option Chars :=
  let t2 := urlClean t
  let rest :=
    if startsWithC t2 "https://".data then t2.drop 8
    else if startsWithC t2 "http://".data then t2.drop 7
    else []
  let netloc := rest.takeWhile (fun c => !(c == '/' || c == '?' || c == '#'))
  if containsC '[' netloc || containsC ']' netloc then none
  else
    let host := toLowerC ((afterLastC '@' netloc).takeWhile (fun c => c != ':'))
    if host.isEmpty then none else some host

/-- dynamicsContacts._extract_domain (source name carries a leading
underscore). -/
def extract_domain (v : Option String) : Option String :=
  match v with
  | none => none
  | some s0 =>
    if s0.isEmpty then none
    else
      let s := stripC s0.data
      if containsC '@' s && containsC '.' s then
        some (String.mk (toLowerC (afterLastC '@' s)))
      else
        let t :=
          if startsWithC s "http://".data || startsWithC s "https://".data then s
          else "https://".data ++ s
        match urlHostname t with
        | none => none
        | some h =>
          let host := toLowerC h
          let h2 := if startsWithC host "www.".data then host.drop 4 else host
          if h2.isEmpty then none else some (String.mk h2)

/-- dynamicsContacts.is_non_english: `text.encode("ascii")` raises
UnicodeEncodeError exactly when some character is outside ASCII. -/
def is_non_english (v : Option String) : Bool :=
  match v with
  | none => false
  | some s => if s.isEmpty then false else s.data.any (fun c => c.val ≥ 128)

/-- The replacement table of normalize_title. -/
def titleRepl : List (String × String) :=
  [("sr.", "senior"), ("sr", "senior"),
   ("jr.", "junior"), ("jr", "junior"),
   ("mgr", "manager"), ("dir", "director"),
   ("vp", "Vice President"), ("svp", "Senior Vice President"),
   ("evp", "Executive Vice President"),
   ("cto", "CTO"), ("cio", "CIO"), ("ciso", "CISO"),
   ("cfo", "CFO"), ("coo", "COO"), ("ceo", "CEO"),
   ("eng", "Engineer"), ("eng.", "Engineer")]

/-- Python `str.capitalize()`: first character uppercased, the rest
lowercased. -/
def pyCapitalize (s : String) : String :=
  match s.data with
  | [] => ""
  | c :: rest => String.mk (Char.toUpper c :: rest.map Char.toLower)

/-- The executive-title set of line 62. -/
def execWords : List String := ["cto", "cio", "ciso", "cfo", "coo", "ceo"]

/-- dynamicsContacts.normalize_title. -/
def normalize_title (v : Option String) : Option String :=
  match v with
  | none => none
  | some s =>
    if s.isEmpty then none
    else
      let t := toLowerC (stripC s.data)
      let ws := (wordsC t).map
        (fun w => (titleRepl.lookup (String.mk w)).getD (String.mk w))
      some (String.intercalate " "
        (ws.map (fun w => if execWords.contains w then w.toUpper else pyCapitalize w)))

/-- dynamicsContacts.classify_leadtype. -/
def classify_leadtype (v : Option String) : Option String :=
  match v with
  | none => none
  | some s =>
    if s.isEmpty then none
    else
      let ln := toLowerC s.data
      if isSubC "engineering".data ln then some "Engineering"
      else if isSubC "sales".data ln then some "Sales"
      else if isSubC "it".data ln || isSubC "information technology".data ln then some "IT"
      else none

/-! ### dynamicsContacts.py: data model and upsert/resolve logic -/

/-- One normalised CSV row (after normalize_headers). -/
structure CRow where
  firstname : Option String
  lastname : Option String
  jobtitle : Option String
  accountname : Option String
  emailaddress1 : Option String
  list_name : Option String
  websiteurl : Option String
  city : Option String
  state : Option String
  country : Option String
deriving DecidableEq

/-- The JSON body POSTed to /accounts (absent keys are `none`). -/
structure AcctPayload where
  name : Option String
  websiteurl : Option String
  address1_city : Option String
  address1_stateorprovince : Option String
  address1_country : Option String
deriving DecidableEq

/-- The JSON body POSTed to /contacts after the `None`/`""` filter
(the parent-account bind is always present). -/
structure ContactPayload where
  firstname : Option String
  lastname : Option String
  fullname : Option String
  jobtitle : Option String
  emailaddress1 : Option String
  cr21a_leadtype : Option String
  parentAccountBind : String
deriving DecidableEq

/-- An HTTP POST issued by the contacts script. -/
inductive Req where
  | acctCreate (p : AcctPayload)
  | contactCreate (p : ContactPayload)
deriving DecidableEq

/-- The two preloaded account maps (normalised name → id, domain → id). -/
structure Maps where
  accounts : List (String × String)
  domains : List (String × String)
deriving DecidableEq

/-- Dict lookup. -/
def lookupM (m : List (String × String)) (k : String) : Option String := m.lookup k

/-- Dict store `m[k] = v` (replaces an existing binding, otherwise adds one:
the length grows exactly when the key is new, as in a Python dict). -/
def insertM (m : List (String × String)) (k v : String) : List (String × String) :=
  if (m.lookup k).isSome then m.map (fun p => if p.1 == k then (k, v) else p)
  else (k, v) :: m

/-- The Dynamics HTTP layer seen by dynamicsContacts.py: each POST maps the
request body to `ok id` (a 2xx response whose OData-EntityId carries the new
record id) or `error` (a non-ok response; the source raises RuntimeError). -/
structure Net where
  acct : AcctPayload → Except Unit String
  contact : ContactPayload → Except Unit String

/-- `sv = sanitize(v); if sv: payload[k] = sv`. -/
def keepTruthy (v : Option String) : Option String :=
  let sv := sanitize v
  if pyTruthy sv then sv else none

/-- The `extra` dict built by resolve_account_id. -/
structure ExtraAcct where
  websiteurl : Option String
  address1_city : Option String
  address1_stateorprovince : Option String
  address1_country : Option String
deriving DecidableEq

/-- The payload of upsert_account (lines 159–163). -/
def buildAcctPayload (name : Option String) (extra : ExtraAcct) : AcctPayload :=
  { name := sanitize name
    websiteurl := keepTruthy extra.websiteurl
    address1_city := keepTruthy extra.address1_city
    address1_stateorprovince := keepTruthy extra.address1_stateorprovince
    address1_country := keepTruthy extra.address1_country }

/-- Result of upsert_account / resolve_account_id: the returned id (or the
raised exception), the account maps after the call, and the POSTs issued. -/
structure UpsertAcctOut where
  res : Except Unit (Option String)
  maps : Maps
  reqs : List Req
deriving DecidableEq

/-- dynamicsContacts.upsert_account (always called with an `extra` dict). -/
def upsert_account (net : Net) (name : Option String) (maps : Maps)
    (extra : ExtraAcct) : UpsertAcctOut :=
  if !pyTruthy name then ⟨.ok none, maps, []⟩
  else
    match lookupM maps.accounts ((norm_name name).getD "") with
    | some accId => ⟨.ok (some accId), maps, []⟩
    | none =>
      match net.acct (buildAcctPayload name extra) with
      | .error e => ⟨.error e, maps, [.acctCreate (buildAcctPayload name extra)]⟩
      | .ok accId =>
        ⟨.ok (some accId),
         ⟨insertM maps.accounts ((norm_name name).getD "") accId,
          match extract_domain extra.websiteurl with
          | some dom => if dom.isEmpty then maps.domains else insertM maps.domains dom accId
          | none => maps.domains⟩,
         [.acctCreate (buildAcctPayload name extra)]⟩

/-- `name_key and name_key in accounts_map` of resolve_account_id: the id
the normalised company name maps to, if any. -/
def nameHitOf (row : CRow) (maps : Maps) : Option String :=
  if pyTruthy (norm_name (sanitize row.accountname)) then
    lookupM maps.accounts ((norm_name (sanitize row.accountname)).getD "")
  else none

/-- `web_domain and web_domain in domains_map`. -/
def webHitOf (row : CRow) (maps : Maps) : Option String :=
  if pyTruthy (extract_domain (sanitize row.websiteurl)) then
    lookupM maps.domains ((extract_domain (sanitize row.websiteurl)).getD "")
  else none

/-- `email_domain and email_domain in domains_map`. -/
def emailHitOf (row : CRow) (maps : Maps) : Option String :=
  if pyTruthy (extract_domain (sanitize row.emailaddress1)) then
    lookupM maps.domains ((extract_domain (sanitize row.emailaddress1)).getD "")
  else none

/-- dynamicsContacts.resolve_account_id. -/
def resolve_account_id (net : Net) (row : CRow) (maps : Maps) : UpsertAcctOut :=
  match nameHitOf row maps with
  | some accId => ⟨.ok (some accId), maps, []⟩
  | none =>
    match webHitOf row maps with
    | some accId => ⟨.ok (some accId), maps, []⟩
    | none =>
      match emailHitOf row maps with
      | some accId => ⟨.ok (some accId), maps, []⟩
      | none =>
        if pyTruthy (sanitize row.accountname) then
          upsert_account net (sanitize row.accountname) maps
            ⟨sanitize row.websiteurl, sanitize row.city, sanitize row.state,
             sanitize row.country⟩
        else ⟨.ok none, maps, []⟩

/-- `email.strip().lower()` / `fullname.strip().lower()` map keys. -/
def lowerKey (s : String) : String := String.mk (toLowerC (stripC s.data))

/-- Result of upsert_contact. -/
structure UpsertContactOut where
  res : Except Unit String
  byEmail : List (String × String)
  byFullname : List (String × String)
  reqs : List Req
deriving DecidableEq

/-- The existing-contact lookup of upsert_contact: by (stripped, lowered)
email key first, then — when that produced nothing truthy — by fullname. -/
def contactHit (p : ContactPayload) (byEmail byFullname : List (String × String)) :
    Option String :=
  let email := sanitize p.emailaddress1
  let fullname := sanitize p.fullname
  let cid0 : Option String :=
    if pyTruthy email then lookupM byEmail (lowerKey (email.getD "")) else none
  if !pyTruthy cid0 && pyTruthy fullname then
    lookupM byFullname (lowerKey (fullname.getD ""))
  else cid0

/-- dynamicsContacts.upsert_contact. -/
def upsert_contact (net : Net) (p : ContactPayload)
    (byEmail byFullname : List (String × String)) : UpsertContactOut :=
  if pyTruthy (contactHit p byEmail byFullname) then
    ⟨.ok ((contactHit p byEmail byFullname).getD ""), byEmail, byFullname, []⟩
  else
    match net.contact p with
    | .error e => ⟨.error e, byEmail, byFullname, [.contactCreate p]⟩
    | .ok contactId =>
      ⟨.ok contactId,
       if pyTruthy (sanitize p.emailaddress1) then
         insertM byEmail (lowerKey ((sanitize p.emailaddress1).getD "")) contactId
       else byEmail,
       if pyTruthy (sanitize p.fullname) then
         insertM byFullname (lowerKey ((sanitize p.fullname).getD "")) contactId
       else byFullname,
       [.contactCreate p]⟩

/-- The whole mutable state of one contacts run. -/
structure ContactsSt where
  maps : Maps
  byEmail : List (String × String)
  byFullname : List (String × String)
deriving DecidableEq

/-- Result of one try-protected row body: `ok true` = the row incremented
`created_contacts`, `ok false` = it incremented `skipped_contacts`, `error` =
the body raised (the `except` increments `failures`). -/
structure StepOut (σ τ : Type) where
  res : Except Unit Bool
  st : σ
  reqs : List τ
deriving DecidableEq

/-- The `None`/`""` payload filter of line 302. -/
def filterNE (v : Option String) : Option String :=
  match v with
  | none => none
  | some s => if s.isEmpty then none else some s

/-- `f"{firstname or \x27\x27} {lastname or \x27\x27}".strip() or None` (line 292). -/
def wizaFullname (row : CRow) : Option String :=
  if (String.mk (stripC (((sanitize row.firstname).getD "") ++ " " ++
      ((sanitize row.lastname).getD "")).data)).isEmpty then none
  else some (String.mk (stripC (((sanitize row.firstname).getD "") ++ " " ++
      ((sanitize row.lastname).getD "")).data))

/-- The contact payload built on lines 293–302 (after the None/"" filter). -/
def wizaPayload (row : CRow) (accountId : String) : ContactPayload :=
  { firstname := filterNE (sanitize row.firstname)
    lastname := filterNE (sanitize row.lastname)
    fullname := filterNE (wizaFullname row)
    jobtitle := filterNE (normalize_title (sanitize row.jobtitle))
    emailaddress1 := filterNE (sanitize row.emailaddress1)
    cr21a_leadtype := filterNE (classify_leadtype (sanitize row.list_name))
    parentAccountBind := "/accounts(" ++ accountId ++ ")" }

/-- One iteration of the row loop of dynamicsContacts.ingest_wiza_file
(the body of its `try`). -/
def wizaRowStep (net : Net) (row : CRow) (st : ContactsSt) : StepOut ContactsSt Req :=
  if is_non_english (sanitize row.firstname) || is_non_english (sanitize row.lastname) then
    ⟨.ok false, st, []⟩
  else
    match (resolve_account_id net row st.maps).res with
    | .error e =>
      ⟨.error e, ⟨(resolve_account_id net row st.maps).maps, st.byEmail, st.byFullname⟩,
       (resolve_account_id net row st.maps).reqs⟩
    | .ok accOpt =>
      if !pyTruthy accOpt then
        ⟨.ok false, ⟨(resolve_account_id net row st.maps).maps, st.byEmail, st.byFullname⟩,
         (resolve_account_id net row st.maps).reqs⟩
      else
        if (wizaPayload row (accOpt.getD "")).emailaddress1.isNone &&
            (wizaPayload row (accOpt.getD "")).fullname.isNone then
          ⟨.ok false, ⟨(resolve_account_id net row st.maps).maps, st.byEmail, st.byFullname⟩,
           (resolve_account_id net row st.maps).reqs⟩
        else
          match (upsert_contact net (wizaPayload row (accOpt.getD ""))
              st.byEmail st.byFullname).res with
          | .error e =>
            ⟨.error e,
             ⟨(resolve_account_id net row st.maps).maps,
              (upsert_contact net (wizaPayload row (accOpt.getD ""))
                st.byEmail st.byFullname).byEmail,
              (upsert_contact net (wizaPayload row (accOpt.getD ""))
                st.byEmail st.byFullname).byFullname⟩,
             (resolve_account_id net row st.maps).reqs ++
               (upsert_contact net (wizaPayload row (accOpt.getD ""))
                 st.byEmail st.byFullname).reqs⟩
          | .ok _ =>
            if st.byEmail.length < (upsert_contact net (wizaPayload row (accOpt.getD ""))
                  st.byEmail st.byFullname).byEmail.length ||
                st.byFullname.length < (upsert_contact net (wizaPayload row (accOpt.getD ""))
                  st.byEmail st.byFullname).byFullname.length then
              ⟨.ok true,
               ⟨(resolve_account_id net row st.maps).maps,
                (upsert_contact net (wizaPayload row (accOpt.getD ""))
                  st.byEmail st.byFullname).byEmail,
                (upsert_contact net (wizaPayload row (accOpt.getD ""))
                  st.byEmail st.byFullname).byFullname⟩,
               (resolve_account_id net row st.maps).reqs ++
                 (upsert_contact net (wizaPayload row (accOpt.getD ""))
                   st.byEmail st.byFullname).reqs⟩
            else
              ⟨.ok false,
               ⟨(resolve_account_id net row st.maps).maps,
                (upsert_contact net (wizaPayload row (accOpt.getD ""))
                  st.byEmail st.byFullname).byEmail,
                (upsert_contact net (wizaPayload row (accOpt.getD ""))
                  st.byEmail st.byFullname).byFullname⟩,
               (resolve_account_id net row st.maps).reqs ++
                 (upsert_contact net (wizaPayload row (accOpt.getD ""))
                   st.byEmail st.byFullname).reqs⟩

/-- The per-file counters: contacts created, contacts skipped, failures
(toDynamics.ingest_file uses only created and failures). -/
structure RunCounts where
  created : Nat
  skipped : Nat
  failures : Nat
deriving DecidableEq

def addCounts (a b : RunCounts) : RunCounts :=
  ⟨a.created + b.created, a.skipped + b.skipped, a.failures + b.failures⟩

def countsOf (r : Except Unit Bool) : RunCounts :=
  match r with
  | .ok true => ⟨1, 0, 0⟩
  | .ok false => ⟨0, 1, 0⟩
  | .error _ => ⟨0, 0, 1⟩

/-- The shared shape of the row loops: every row body runs inside
`try: … except Exception: failures += 1`, so each row contributes to exactly
one counter and the loop itself is a total function of the row list. -/
def runRows {ρ σ τ : Type} (step : ρ → σ → StepOut σ τ) :
    List ρ → σ → RunCounts × σ × List τ
  | [], st => (⟨0, 0, 0⟩, st, [])
  | r :: rs, st =>
    (addCounts (countsOf (step r st).res) (runRows step rs (step r st).st).1,
     (runRows step rs (step r st).st).2.1,
     (step r st).reqs ++ (runRows step rs (step r st).st).2.2)

/-- dynamicsContacts.ingest_wiza_file: the row loop over the parsed
dataframe, starting from the preloaded maps.  Returns the printed summary
counters, the final maps, and the POSTs issued.  (File-level I/O —
read_csv, archive — is outside the model.) -/
def ingest_wiza_file (net : Net) (rows : List CRow) (st : ContactsSt) :
    RunCounts × ContactsSt × List Req :=
  runRows (wizaRowStep net) rows st

/-! ### PyVal: dynamically typed cells of the job spreadsheets -/

/-- A Python float as far as this code base inspects one: a finite rational
with its `str()` rendering, or one of the non-finite values. -/
inductive FloatV where
  | fin (q : ℚ) (rep : String)
  | nan
  | inf
  | ninf
deriving DecidableEq

/-- A dataframe cell value.  `vDT` carries the `isoformat()` of a
datetime/Timestamp; `vOther` is any other object, recording whether
`pd.isna` raises on it (array-likes) and what `float()` returns for it. -/
inductive PyVal where
  | vNone
  | vNaN
  | vNaT
  | vDT (iso : String)
  | vStr (s : String)
  | vFloat (f : FloatV)
  | vInt (n : Int)
  | vOther (isnaRaises : Bool) (asFloat : Option FloatV) (rep : String)
deriving DecidableEq

/-- `pd.isna` on scalars; on array-likes the enclosing
`if pd.isna(value):` raises ("truth value of an array is ambiguous"). -/
def pdIsNa : PyVal → Except Unit Bool
  | .vNone => .ok true
  | .vNaN => .ok true
  | .vNaT => .ok true
  | .vFloat .nan => .ok true
  | .vFloat _ => .ok false
  | .vDT _ => .ok false
  | .vStr _ => .ok false
  | .vInt _ => .ok false
  | .vOther r _ _ => if r then .error () else .ok false

/-- `float(value)` for the values that can reach it in excel_serial_to_iso
(None, NaN/NaT and strings are dispatched before the call; datetimes raise
TypeError). -/
def pyFloat : PyVal → Except Unit FloatV
  | .vFloat f => .ok f
  | .vInt n => .ok (.fin (n : ℚ) (toString n))
  | .vNaN => .ok .nan
  | .vStr _ => .error ()
  | .vNone => .error ()
  | .vNaT => .error ()
  | .vDT _ => .error ()
  | .vOther _ f _ => match f with | some x => .ok x | none => .error ()

/-- Body of excel_serial_to_iso (identical in toDynamics.py lines 41–59 and
dynamicsAccountsJobs.py lines 45–62) without the outermost try/except.
`parseDT s` abstracts `pd.to_datetime(s).isoformat()` (`none` = the inner
except: unparseable string); `fmtSerial q` abstracts
`(datetime(1899,12,30) + timedelta(days=q)).isoformat()` (`error` = the
datetime library raising, e.g. OverflowError). -/
def excelSerialBody (parseDT : String → Option String)
    (fmtSerial : ℚ → Except Unit String) (v : PyVal) : Except Unit (Option String) := do
  let na ← pdIsNa v
  if na then return none
  else
    match v with
    | .vDT iso => return some iso
    | .vStr s => return parseDT s
    | _ =>
      match pyFloat v with
      | .error e => .error e
      | .ok f =>
        match f with
        | .nan => return none
        | .inf => return none
        | .ninf => return none
        | .fin q _ =>
          match fmtSerial q with
          | .error e => .error e
          | .ok s => return some s

/-- excel_serial_to_iso: the body wrapped in `try: … except: return None`. -/
def excel_serial_to_iso (parseDT : String → Option String)
    (fmtSerial : ℚ → Except Unit String) (v : PyVal) : Option String :=
  match excelSerialBody parseDT fmtSerial v with
  | .ok r => r
  | .error _ => none

/-- Python truthiness of a cell value (`if location:` etc.). -/
def pyTruthyV : PyVal → Bool
  | .vNone => false
  | .vNaN => true
  | .vNaT => true
  | .vDT _ => true
  | .vStr s => !s.isEmpty
  | .vFloat (.fin q _) => decide (q ≠ 0)
  | .vFloat _ => true
  | .vInt n => decide (n ≠ 0)
  | .vOther _ _ _ => true

/-- `str(value)` as far as the job scripts use it. -/
def pyStr : PyVal → String
  | .vNone => "None"
  | .vNaN => "nan"
  | .vNaT => "NaT"
  | .vDT iso => iso
  | .vStr s => s
  | .vFloat (.fin _ r) => r
  | .vFloat .nan => "nan"
  | .vFloat .inf => "inf"
  | .vFloat .ninf => "-inf"
  | .vInt n => toString n
  | .vOther _ _ r => r

/-! ### toDynamics.py and dynamicsAccountsJobs.py: job ingestion -/

/-- One spreadsheet row as used by toDynamics.ingest_file and
dynamicsAccountsJobs.ingest_file/create_job.  A missing column and a null
cell both read back as `vNone` (for `row["Company Name"]` on a missing
column the KeyError is folded into the same error outcome as the
AttributeError a None value causes two lines later). -/
structure JobRow where
  companyName : PyVal
  contactName : PyVal
  location : PyVal
  jobTitle : PyVal
  salary : PyVal
  jobLink : PyVal
  source : PyVal
  tags : PyVal
  dateAdded : PyVal
  dateApplied : PyVal
  dateInterviewed : PyVal
  dateOffered : PyVal
  dateRejected : PyVal
deriving DecidableEq

/-- toDynamics/jobs `sanitize`: `None if pd.isna(value) else value`
(pd.isna can raise on array-likes). -/
def sanitize_pd (v : PyVal) : Except Unit (Option PyVal) := do
  let na ← pdIsNa v
  return (if na then none else some v)

/-- The account payload POSTed by toDynamics.upsert_account. -/
structure TDAcctPayload where
  name : String
  address1_city : Option PyVal
deriving DecidableEq

/-- The contact payload POSTed by toDynamics.upsert_contact and
dynamicsAccountsJobs.upsert_contact (the two are line-identical). -/
structure TDContactPayload where
  firstname : String
  lastname : String
  fullname : String
  parentAccountBind : String
deriving DecidableEq

/-- The job-posting payload POSTed to /cr21a_jobpostings (both job files
build the same shape; the `nan`-normalisation pass exists only in
dynamicsAccountsJobs). -/
structure JobPayload where
  jobtitle : Option PyVal
  companyname : Option PyVal
  salary : Option PyVal
  location : Option PyVal
  joblink : Option PyVal
  source : Option PyVal
  tags : Option PyVal
  dateadded : Option String
  dateapplied : Option String
  dateinterviewed : Option String
  dateoffered : Option String
  daterejected : Option String
  accountBind : String
  contactBind : Option String
deriving DecidableEq

/-- An HTTP POST issued by the job scripts. -/
inductive TDReq where
  | acctCreate (p : TDAcctPayload)
  | contactCreate (p : TDContactPayload)
  | jobCreate (p : JobPayload)
deriving DecidableEq

/-- The HTTP/date layer seen by toDynamics.py.  `acctLookup`/`contactLookup`
abstract the filtered GETs (`some id` = non-empty value list; a non-ok GET
and an empty result are treated identically by the source, both fall through
to creation).  The `.replace("'", "''")` quoting happens inside the
abstracted query. -/
structure TDNet where
  acctLookup : String → Option String
  acctCreate : TDAcctPayload → Except Unit String
  contactLookup : String → Option String
  contactCreate : TDContactPayload → Except Unit String
  jobCreate : JobPayload → Except Unit String
  parseDT : String → Option String
  fmtSerial : ℚ → Except Unit String

/-- Result of toDynamics.upsert_account. -/
structure TDUAOut where
  res : Except Unit String
  reqs : List TDReq
deriving DecidableEq

/-- toDynamics.upsert_account.  A non-string company name (None after the
dataframe normalisation) raises AttributeError at
`company_name.replace("'", "''")`. -/
def upsert_account_td (net : TDNet) (companyName location : PyVal) : TDUAOut :=
  match companyName with
  | .vStr nm =>
    match net.acctLookup nm with
    | some accId => ⟨.ok accId, []⟩
    | none =>
      let payload : TDAcctPayload :=
        ⟨nm, if pyTruthyV location then some location else none⟩
      match net.acctCreate payload with
      | .error e => ⟨.error e, [.acctCreate payload]⟩
      | .ok accId => ⟨.ok accId, [.acctCreate payload]⟩
  | _ => ⟨.error (), []⟩

/-- Result of upsert_contact (toDynamics / jobs). -/
structure TDUCOut where
  res : Except Unit (Option String)
  reqs : List TDReq
deriving DecidableEq

/-- toDynamics.upsert_contact (line-identical to
dynamicsAccountsJobs.upsert_contact). -/
def upsert_contact_td (net : TDNet) (contactName : PyVal) (accountId : String) : TDUCOut :=
  if !pyTruthyV contactName || (String.mk (stripC (pyStr contactName).data)).isEmpty then
    ⟨.ok none, []⟩
  else
    let nameS := pyStr contactName
    match net.contactLookup nameS with
    | some cid => ⟨.ok (some cid), []⟩
    | none =>
      let parts := nameS.splitOn " "
      let payload : TDContactPayload :=
        { firstname := parts.headD ""
          lastname := if parts.length > 1 then String.intercalate " " (parts.drop 1) else ""
          fullname := nameS
          parentAccountBind := "/accounts(" ++ accountId ++ ")" }
      match net.contactCreate payload with
      | .error e => ⟨.error e, [.contactCreate payload]⟩
      | .ok cid => ⟨.ok (some cid), [.contactCreate payload]⟩

/-- Result of create_job (toDynamics). -/
structure TDCJOut where
  res : Except Unit Unit
  reqs : List TDReq
deriving DecidableEq

/-- toDynamics.create_job. -/
def create_job_td (net : TDNet) (row : JobRow) (accountId : String)
    (contactId : Option String) : TDCJOut :=
  let build : Except Unit JobPayload := do
    let jt ← sanitize_pd row.jobTitle
    let cn ← sanitize_pd row.companyName
    let sal ← sanitize_pd row.salary
    let loc ← sanitize_pd row.location
    let jl ← sanitize_pd row.jobLink
    let src ← sanitize_pd row.source
    let tg ← sanitize_pd row.tags
    return { jobtitle := jt, companyname := cn, salary := sal, location := loc
             joblink := jl, source := src, tags := tg
             dateadded := excel_serial_to_iso net.parseDT net.fmtSerial row.dateAdded
             dateapplied := excel_serial_to_iso net.parseDT net.fmtSerial row.dateApplied
             dateinterviewed := excel_serial_to_iso net.parseDT net.fmtSerial row.dateInterviewed
             dateoffered := excel_serial_to_iso net.parseDT net.fmtSerial row.dateOffered
             daterejected := excel_serial_to_iso net.parseDT net.fmtSerial row.dateRejected
             accountBind := "/accounts(" ++ accountId ++ ")"
             contactBind := match contactId with
               | some c => if c.isEmpty then none else some ("/contacts(" ++ c ++ ")")
               | none => none }
  match build with
  | .error e => ⟨.error e, []⟩
  | .ok payload =>
    match net.jobCreate payload with
    | .error e => ⟨.error e, [.jobCreate payload]⟩
    | .ok _ => ⟨.ok (), [.jobCreate payload]⟩

/-- One iteration of toDynamics.ingest_file's row loop (the body of its
`try`).  The source has no skip category: `ok true` = `success_count += 1`. -/
def tdRowStep (net : TDNet) (row : JobRow) (st : Unit) : StepOut Unit TDReq :=
  let ua := upsert_account_td net row.companyName row.location
  match ua.res with
  | .error e => ⟨.error e, st, ua.reqs⟩
  | .ok accountId =>
    let uc := upsert_contact_td net row.contactName accountId
    match uc.res with
    | .error e => ⟨.error e, st, ua.reqs ++ uc.reqs⟩
    | .ok contactId =>
      let cj := create_job_td net row accountId contactId
      match cj.res with
      | .error e => ⟨.error e, st, ua.reqs ++ uc.reqs ++ cj.reqs⟩
      | .ok _ => ⟨.ok true, st, ua.reqs ++ uc.reqs ++ cj.reqs⟩

/-- toDynamics.ingest_file row loop: `created` is `success_count`,
`failures` is `fail_count`, `skipped` stays 0. -/
def ingest_file_td (net : TDNet) (rows : List JobRow) : RunCounts × Unit × List TDReq :=
  runRows (tdRowStep net) rows ()

/-! ### dynamicsAccountsJobs.py: account upsert with export logging, and
job-link deduplication -/

/-- A Python dict with string keys, in insertion order. -/
abbrev PyDict := List (String × PyVal)

def dictGet (d : PyDict) (k : String) : Option PyVal := d.lookup k

/-- `d[k] = v`: replaces in place, or appends a new binding. -/
def dictSet (d : PyDict) (k : String) (v : PyVal) : PyDict :=
  if (d.lookup k).isSome then d.map (fun p => if p.1 == k then (k, v) else p)
  else d ++ [(k, v)]

/-- A Python call argument (the export logger is called with a dict in
dynamicsAccountsJobs and with scalars elsewhere). -/
inductive PyArg where
  | dict (d : PyDict)
  | val (v : PyVal)
deriving DecidableEq

/-- One row of accountExport.accounts_export. -/
structure ExportEntry where
  companyName : PyArg
  accountId : PyArg
  website : PyArg
deriving DecidableEq

def typeErrorLogExport : String :=
  "TypeError: log_account_for_export() missing 1 required positional argument"

/-- A Python *call* of accountExport.log_account_for_export with the given
positional argument list.  The definition is
`def log_account_for_export(account_name, account_id, website=None)`, so a
call with fewer than two (or more than three) positional arguments raises
TypeError before the body runs; otherwise the body appends
`{"Company Name": account_name, "Account Id": account_id,
"Website": website or ""}` to the module-level list. -/
def log_account_for_export_call (args : List PyArg) (exports : List ExportEntry) :
    Except String (List ExportEntry) :=
  match args with
  | [n, i] => .ok (exports ++ [⟨n, i, .val (.vStr "")⟩])
  | [n, i, w] =>
    .ok (exports ++ [⟨n, i,
      match w with
      | .val x => if pyTruthyV x then .val x else .val (.vStr "")
      | .dict d => .dict d⟩])
  | _ => .error typeErrorLogExport

/-- The HTTP/date layer seen by dynamicsAccountsJobs.py. -/
structure JNet where
  acctLookup : String → Option String
  acctCreate : PyDict → Except String String
  jobCreate : JobPayload → Except String String
  parseDT : String → Option String
  fmtSerial : ℚ → Except Unit String

/-- Result of dynamicsAccountsJobs.upsert_account. -/
structure JUAOut where
  res : Except String PyDict
  exports : List ExportEntry
deriving DecidableEq

/-- dynamicsAccountsJobs.upsert_account.  On both the found and the created
path it sets `account_obj["Account Id"]` and then calls
`log_account_for_export(account_obj)` — a single-argument call of a
function that requires two positional parameters. -/
def upsert_account_jobs (net : JNet) (accountObj : PyDict)
    (exports : List ExportEntry) : JUAOut :=
  match dictGet accountObj "name" with
  | some (.vStr nm) =>
    match net.acctLookup nm with
    | some accId =>
      let obj2 := dictSet accountObj "Account Id" (.vStr accId)
      match log_account_for_export_call [.dict obj2] exports with
      | .error e => ⟨.error e, exports⟩
      | .ok ex2 => ⟨.ok obj2, ex2⟩
    | none =>
      let payload := accountObj.filter
        (fun p => !(p.2 == PyVal.vNone) && !(p.2 == PyVal.vStr "") && p.1 != "Account Id")
      match net.acctCreate payload with
      | .error e => ⟨.error e, exports⟩
      | .ok accId =>
        let obj2 := dictSet accountObj "Account Id" (.vStr accId)
        match log_account_for_export_call [.dict obj2] exports with
        | .error e => ⟨.error e, exports⟩
        | .ok ex2 => ⟨.ok obj2, ex2⟩
  | _ => ⟨.error "AttributeError: company_name has no attribute replace", exports⟩

/-- `str(job_link_raw).strip() if job_link_raw is not None else ""`
(`row.get("Job Link", "")` also yields `""` for a missing column). -/
def jobLinkOf (row : JobRow) : String :=
  match row.jobLink with
  | .vNone => ""
  | v => String.mk (stripC (pyStr v).data)

/-- `job_link and job_link.lower() != "nan"`: the links subject to the
uniqueness check. -/
def jobLinkValid (row : JobRow) : Bool :=
  !(jobLinkOf row).isEmpty && (String.mk (toLowerC (jobLinkOf row).data) != "nan")

/-- Python `set.add` on the list model. -/
def setInsert (l : List String) (x : String) : List String :=
  if l.contains x then l else x :: l

/-- The NaN/Inf/"nan" normalisation loop of create_job (lines 195–210)
applied to one already-sanitized payload value. -/
def jobsNormVal (v : Option PyVal) : Except Unit (Option PyVal) :=
  match v with
  | none => .ok none
  | some x => do
    let na ← pdIsNa x
    if na then return none
    else
      match x with
      | .vFloat .nan => return none
      | .vFloat .inf => return none
      | .vFloat .ninf => return none
      | .vStr s =>
        if toLowerC (stripC s.data) = "nan".data then return none else return (some x)
      | _ => return (some x)

/-- The same normalisation applied to the date fields (already iso strings
or None; kept for faithfulness to the loop running over every key). -/
def jobsNormDate (v : Option String) : Option String :=
  match v with
  | none => none
  | some s => if toLowerC (stripC s.data) = "nan".data then none else some s

/-- Result of dynamicsAccountsJobs.create_job: `ok false` = skipped
duplicate (early return), `ok true` = job POSTed successfully, `error` = the
body raised; `links` is existing_links after the call. -/
structure JCJOut where
  res : Except Unit Bool
  links : List String
  reqs : List JobPayload
deriving DecidableEq

/-- The payload construction of dynamicsAccountsJobs.create_job
(field_map sanitation, date conversion, NaN/"nan" normalisation,
bindings). -/
def jobsBuildPayload (net : JNet) (row : JobRow) (accountId : String)
    (contactId : Option String) : Except Unit JobPayload := do
  let jt0 ← sanitize_pd row.jobTitle
  let cn0 ← sanitize_pd row.companyName
  let sal0 ← sanitize_pd row.salary
  let loc0 ← sanitize_pd row.location
  let jl0 ← sanitize_pd row.jobLink
  let src0 ← sanitize_pd row.source
  let tg0 ← sanitize_pd row.tags
  let jt ← jobsNormVal jt0
  let cn ← jobsNormVal cn0
  let sal ← jobsNormVal sal0
  let loc ← jobsNormVal loc0
  let jl ← jobsNormVal jl0
  let src ← jobsNormVal src0
  let tg ← jobsNormVal tg0
  return { jobtitle := jt, companyname := cn, salary := sal, location := loc
           joblink := jl, source := src, tags := tg
           dateadded := jobsNormDate (excel_serial_to_iso net.parseDT net.fmtSerial row.dateAdded)
           dateapplied := jobsNormDate (excel_serial_to_iso net.parseDT net.fmtSerial row.dateApplied)
           dateinterviewed := jobsNormDate (excel_serial_to_iso net.parseDT net.fmtSerial row.dateInterviewed)
           dateoffered := jobsNormDate (excel_serial_to_iso net.parseDT net.fmtSerial row.dateOffered)
           daterejected := jobsNormDate (excel_serial_to_iso net.parseDT net.fmtSerial row.dateRejected)
           accountBind := "/accounts(" ++ accountId ++ ")"
           contactBind := match contactId with
             | some c => if c.isEmpty then none else some ("/contacts(" ++ c ++ ")")
             | none => none }

/-- dynamicsAccountsJobs.create_job (existing_links is always the preloaded
set in this script, never None). -/
def create_job (net : JNet) (row : JobRow) (accountId : String)
    (contactId : Option String) (existingLinks : List String) : JCJOut :=
  if jobLinkValid row && existingLinks.contains (jobLinkOf row) then
    ⟨.ok false, existingLinks, []⟩
  else
    match jobsBuildPayload net row accountId contactId with
    | .error e =>
      ⟨.error e,
       if jobLinkValid row then setInsert existingLinks (jobLinkOf row) else existingLinks,
       []⟩
    | .ok payload =>
      match net.jobCreate payload with
      | .error _ =>
        ⟨.error (),
         if jobLinkValid row then setInsert existingLinks (jobLinkOf row) else existingLinks,
         [payload]⟩
      | .ok _ =>
        ⟨.ok true,
         if jobLinkValid row then setInsert existingLinks (jobLinkOf row) else existingLinks,
         [payload]⟩

/-- dynamicsAccountsJobs.preload_existing_joblinks over the fetched
cr21a_joblink values (`if link:` then `add(link.strip())`). -/
def preloadStep (acc : List String) (l : Option String) : List String :=
  match l with
  | some s => if s.isEmpty then acc else setInsert acc (String.mk (stripC s.data))
  | none => acc

/-- dynamicsAccountsJobs.preload_existing_joblinks proper. -/
def preload_existing_joblinks (fetched : List (Option String)) : List String :=
  fetched.foldl preloadStep []

/-- The sequence of create_job calls of one run (each with the account and
contact ids its row's upserts produced), threading existing_links.  Returns
the stripped links of the successfully created jobs that carried a valid
link, and the final link set. -/
def postedLinks (row : JobRow) (o : JCJOut) : List String :=
  match o.res with
  | .ok true => if jobLinkValid row then [jobLinkOf row] else []
  | _ => []

def runCreateJobs (net : JNet) :
    List (JobRow × String × Option String) → List String → List String × List String
  | [], links => ([], links)
  | (row, accId, cid) :: rest, links =>
    (postedLinks row (create_job net row accId cid links) ++
        (runCreateJobs net rest (create_job net row accId cid links).links).1,
     (runCreateJobs net rest (create_job net row accId cid links).links).2)

/-! ### leadsExtract.py: final merge/dedup and archiving -/

/-- Insertion into a sorted list (the model of pandas `sort_values`; any
correct sort gives the same result on rows with pairwise distinct ids). -/
def insertLe {α : Type} (le : α → α → Bool) (x : α) : List α → List α
  | [] => [x]
  | y :: ys => if le x y then x :: y :: ys else y :: insertLe le x ys

/-- Insertion sort. -/
def sortLe {α : Type} (le : α → α → Bool) : List α → List α
  | [] => []
  | x :: xs => insertLe le x (sortLe le xs)

/-- One row of the combined dataframe: its `id` column (`rid`), its `email`
column, and the remaining columns.  (`type`, `source_file`, … are ordinary
members of `cells`.) -/
structure LRow where
  rid : Nat
  email : Option String
  cells : List (Option String)
deriving DecidableEq

/-- `combined.sort_values("id")`. -/
def sortById (rows : List LRow) : List LRow :=
  sortLe (fun a b => decide (a.rid ≤ b.rid)) rows

/-- First-occurrence duplicate removal with an accumulator of seen keys. -/
def dedupAcc (seen : List String) : List String → List String
  | [] => []
  | x :: xs =>
    if seen.contains x then dedupAcc seen xs else x :: dedupAcc (x :: seen) xs

/-- Code-point lexicographic order (Python string comparison). -/
def leChars : Chars → Chars → Bool
  | [], _ => true
  | _ :: _, [] => false
  | a :: as, b :: bs =>
    if a.val < b.val then true else if b.val < a.val then false else leChars as bs

def leStr (a b : String) : Bool := leChars a.data b.data

/-- The group keys of `combined.groupby("email", …)`: the distinct non-null
emails, in sorted order (groupby sorts keys and drops NaN keys). -/
def groupKeys (sorted : List LRow) : List String :=
  sortLe leStr (dedupAcc [] (sorted.filterMap (fun r => r.email)))

/-- Merge one row over the previous filled row: a cell keeps its value and a
null cell takes the previous one (one ffill step, columnwise). -/
def mergeRow : List (Option String) → List (Option String) → List (Option String)
  | [], _ => []
  | _ :: _, [] => []
  | c :: cs, p :: ps => (Option.or c p) :: mergeRow cs ps

/-- `DataFrame.ffill` with an explicit initial previous row. -/
def ffillAux (prev : List (Option String)) :
    List (List (Option String)) → List (List (Option String))
  | [] => []
  | r :: rs => mergeRow r prev :: ffillAux (mergeRow r prev) rs

/-- `g.ffill()` on a group with `ncols` columns. -/
def ffill (ncols : Nat) (g : List (List (Option String))) : List (List (Option String)) :=
  ffillAux (List.replicate ncols none) g

/-- `g.bfill()`: ffill upwards. -/
def bfill (ncols : Nat) (g : List (List (Option String))) : List (List (Option String)) :=
  (ffillAux (List.replicate ncols none) g.reverse).reverse

/-- `g.ffill().bfill().iloc[0]` for the id-sorted group of one email key
(pandas keeps the first row's id and the constant group email). -/
def keptRow (ncols : Nat) (e : String) (sorted : List LRow) : LRow :=
  { rid := ((sorted.filter (fun r => r.email == some e)).headD ⟨0, none, []⟩).rid
    email := some e
    cells := (bfill ncols (ffill ncols
        ((sorted.filter (fun r => r.email == some e)).map (fun r => r.cells)))).headD
      (List.replicate ncols none) }

/-- Lines 119–128: sort by id, group by email, keep
`g.ffill().bfill().iloc[0]` per group. -/
def mergeDedup (ncols : Nat) (rows : List LRow) : List LRow :=
  (groupKeys (sortById rows)).map (fun e => keptRow ncols e (sortById rows))

/-- Line 131: `combined["id"] = range(1, len(combined)+1)`. -/
def reassignAux (k : Nat) : List LRow → List LRow
  | [] => []
  | r :: rs => { r with rid := k } :: reassignAux (k + 1) rs

def reassignIds (rows : List LRow) : List LRow := reassignAux 1 rows

/-- The final-merge portion of leadsExtract.main (lines 117–131) for the
case where an email column exists: final dedup across all rows, then id
reassignment. -/
def leadsFinalMerge (ncols : Nat) (rows : List LRow) : List LRow :=
  reassignIds (mergeDedup ncols rows)

/-- The first non-null value of column `j` over a list of rows, top down
(what `ffill().bfill().iloc[0]` extracts per column). -/
def colFirst (j : Nat) : List (List (Option String)) → Option String
  | [] => none
  | r :: rs => Option.or (r[j]?.join) (colFirst j rs)

/-- Claim-side description of the kept data: the row of smallest id among a
list (ties to the earlier one; the claims assume distinct ids). -/
def minIdRow : List LRow → Option LRow
  | [] => none
  | r :: rs =>
    match minIdRow rs with
    | none => some r
    | some m => if r.rid ≤ m.rid then some r else some m

/-- Claim-side description of the kept cell value for email `e`, column `j`:
the value of the smallest-id row having that email and a non-null `j`-th
cell. -/
def specCellValue (rows : List LRow) (e : String) (j : Nat) : Option String :=
  match minIdRow (rows.filter
      (fun r => r.email == some e && (r.cells[j]?.join).isSome)) with
  | some r => r.cells[j]?.join
  | none => none

/-- os.path.basename (POSIX): the part after the last `/`. -/
def basenameC (p : Chars) : Chars := (p.reverse.takeWhile (fun c => c != '/')).reverse

/-- os.path.splitext on a basename: split at the last dot, unless every
character before that dot is itself a dot (leading-dot files have no
extension). -/
def splitextC (b : Chars) : Chars × Chars :=
  if (b.reverse.takeWhile (fun c => c != '.')).length = b.length then (b, [])
  else if (b.take (b.length - (b.reverse.takeWhile (fun c => c != '.')).length - 1)).all
      (fun c => c == '.') then (b, [])
  else (b.take (b.length - (b.reverse.takeWhile (fun c => c != '.')).length - 1),
        b.drop (b.length - (b.reverse.takeWhile (fun c => c != '.')).length - 1))

/-- Decimal digits of `n`, most significant first (fuel-based so the kernel
can evaluate it; `fuel > n` is always enough since `n / 10 < n`). -/
def natReprAux : Nat → Nat → Chars
  | 0, _ => []
  | fuel + 1, n =>
    if n < 10 then [Nat.digitChar n]
    else natReprAux fuel (n / 10) ++ [Nat.digitChar (n % 10)]

/-- The decimal rendering of `n` used by Python's f-string `f"_{counter}"`. -/
def natRepr (n : Nat) : Chars := natReprAux (n + 1) n

/-- The candidate destinations of leadsExtract.archive_file:
`Archive/base`, then `Archive/name_1.ext`, `Archive/name_2.ext`, …. -/
def archiveCandidate (base : Chars) (k : Nat) : String :=
  if k = 0 then String.mk ("Archive/".data ++ base)
  else
    String.mk ("Archive/".data ++ (splitextC base).1 ++
      ('_' :: natRepr k) ++ (splitextC base).2)

/-- The `while os.path.exists(dest):` loop with fuel: try candidate `k`,
advance while it exists.  `fs` is the set of existing paths. -/
def archiveSearch (fs : List String) (base : Chars) : Nat → Nat → Option String
  | 0, _ => none
  | fuel + 1, k =>
    if fs.contains (archiveCandidate base k) then archiveSearch fs base fuel (k + 1)
    else some (archiveCandidate base k)

/-- leadsExtract.archive_file: pick the first free destination (fuel
`|fs| + 1` runs the loop at least once per existing path, enough for every
terminating run of the source's unbounded loop on the modelled
file set), then `shutil.move` the source there. -/
def archive_file (fs : List String) (filepath : String) : Option (String × List String) :=
  match archiveSearch fs (basenameC filepath.data) (fs.length + 1) 0 with
  | some dest => some (dest, dest :: fs.erase filepath)
  | none => none

/-- A concrete network oracle for the jobs script, for evaluation. -/
def c6Net : JNet :=
  ⟨fun _ => none, fun _ => .ok "A1", fun _ => .ok "J1",
   fun _ => none, fun _ => .error ()⟩

/-- A concrete spreadsheet row carrying only a job link, for evaluation. -/
def c6Row : JobRow :=
  ⟨.vNone, .vNone, .vNone, .vNone, .vNone, .vStr "https://j.example/1",
   .vNone, .vNone, .vNone, .vNone, .vNone, .vNone, .vNone⟩

/-- A concrete combined dataframe for evaluation: two rows share an email,
one row has a null email. -/
def c7Rows : List LRow :=
  [⟨2, some "b@x.com", [none, some "B"]⟩,
   ⟨1, some "a@x.com", [some "A", none]⟩,
   ⟨3, some "a@x.com", [some "A2", some "C"]⟩,
   ⟨4, none, [some "D", none]⟩]

/-! ### Lemmas: basic character-list facts -/

theorem length_dropWhileLe {α : Type} (p : α → Bool) (l : List α) :
    (l.dropWhile p).length ≤ l.length :=
  (List.dropWhile_sublist p).length_le

theorem rstripC_length_le (l : Chars) : (rstripC l).length ≤ l.length := by
  unfold rstripC
  rw [List.length_reverse]
  exact le_trans (length_dropWhileLe pyWs l.reverse) (by rw [List.length_reverse])

theorem endsWithC_iff {s suf : Chars} : endsWithC s suf = true ↔ suf <:+ s := by
  unfold endsWithC
  rw [Bool.and_eq_true, decide_eq_true_iff, decide_eq_true_iff]
  constructor
  · rintro ⟨-, h2⟩
    refine ⟨s.take (s.length - suf.length), ?_⟩
    conv_rhs => rw [← List.take_append_drop (s.length - suf.length) s]
    rw [h2]
  · rintro ⟨t, rfl⟩
    have hl : (t ++ suf).length - suf.length = t.length := by
      simp [List.length_append]
    refine ⟨by simp [List.length_append], ?_⟩
    rw [hl, List.drop_left]

theorem endsWithC_nil_of_ne {suf : Chars} (h : suf ≠ []) : endsWithC [] suf = false := by
  unfold endsWithC
  have : ¬ suf.length ≤ 0 := by
    cases suf with
    | nil => exact absurd rfl h
    | cons a t => simp
  simp [this]

theorem dropSufC_length_lt {s suf : Chars} (hs : endsWithC s suf = true) (hne : suf ≠ []) :
    (dropSufC s suf.length).length < s.length := by
  have hsuf : suf <:+ s := endsWithC_iff.mp hs
  have h1 : suf.length ≤ s.length := hsuf.length_le
  have h2 : 1 ≤ suf.length := by
    cases suf with
    | nil => exact absurd rfl hne
    | cons a t => simp
  unfold dropSufC
  rw [List.length_take]
  omega

/-! ### Lemmas: the legal-suffix strip loop of normalize_name -/

theorem stripPass_true (L : List Chars) (s : Chars) : (stripPass L s true).2 = true := by
  induction L generalizing s with
  | nil => rfl
  | cons suf rest ih =>
    unfold stripPass
    by_cases h : endsWithC s suf = true
    · simp only [h, if_true]; exact ih _
    · simp only [Bool.not_eq_true] at h; simp only [h, Bool.false_eq_true, if_false]; exact ih _

theorem stripPass_length_le (L : List Chars) (s : Chars) (ch : Bool) :
    (stripPass L s ch).1.length ≤ s.length := by
  induction L generalizing s ch with
  | nil => simp [stripPass]
  | cons suf rest ih =>
    unfold stripPass
    by_cases h : endsWithC s suf = true
    · simp only [h, if_true]
      refine le_trans (ih _ _) (le_trans (rstripC_length_le _) ?_)
      unfold dropSufC
      rw [List.length_take]
      omega
    · simp only [Bool.not_eq_true] at h; simp only [h, Bool.false_eq_true, if_false]; exact ih _ _

theorem stripPass_lt (L : List Chars) (s : Chars) (hne : ∀ suf ∈ L, suf ≠ [])
    (hch : (stripPass L s false).2 = true) : (stripPass L s false).1.length < s.length := by
  induction L generalizing s with
  | nil => simp [stripPass] at hch
  | cons suf rest ih =>
    unfold stripPass at hch ⊢
    by_cases h : endsWithC s suf = true
    · simp only [h, if_true] at hch ⊢
      refine lt_of_le_of_lt (stripPass_length_le _ _ _) (lt_of_le_of_lt (rstripC_length_le _) ?_)
      exact dropSufC_length_lt h (hne suf (by simp))
    · simp only [Bool.not_eq_true] at h
      simp only [h, Bool.false_eq_true, if_false] at hch ⊢
      exact ih _ (fun x hx => hne x (by simp [hx])) hch

theorem stripPass_fix (L : List Chars) (s : Chars)
    (h : (stripPass L s false).2 = false) : ∀ suf ∈ L, endsWithC s suf = false := by
  induction L generalizing s with
  | nil => intro suf hsuf; cases hsuf
  | cons suf rest ih =>
    intro x hx
    unfold stripPass at h
    by_cases hs : endsWithC s suf = true
    · exfalso
      simp only [hs, if_true] at h
      rw [stripPass_true] at h
      exact Bool.true_eq_false.mp h
    · simp only [Bool.not_eq_true] at hs
      simp only [hs, Bool.false_eq_true, if_false] at h
      rcases List.mem_cons.mp hx with rfl | hx2
      · exact hs
      · exact ih _ h x hx2

theorem legalSufs_ne_nil : ∀ suf ∈ legalSufs, suf ≠ [] := by decide

theorem stripLoop_fix (n : Nat) (s : Chars) (hn : s.length < n) :
    ∀ suf ∈ legalSufs, endsWithC (stripLoop n s) suf = false := by
  induction n generalizing s with
  | zero => omega
  | succ m ih =>
    intro suf hsuf
    unfold stripLoop
    by_cases he : s.isEmpty = true
    · simp only [he, if_true]
      have : s = [] := by cases s with | nil => rfl | cons a t => simp [List.isEmpty] at he
      rw [this]
      exact endsWithC_nil_of_ne (legalSufs_ne_nil suf hsuf)
    · simp only [Bool.not_eq_true] at he
      simp only [he, Bool.false_eq_true, if_false]
      rcases hp : stripPass legalSufs s false with ⟨s', ch⟩
      cases ch with
      | true =>
        have hlt : s'.length < s.length := by
          have := stripPass_lt legalSufs s legalSufs_ne_nil (by rw [hp])
          rwa [hp] at this
        exact ih s' (by omega) suf hsuf
      | false =>
        have := stripPass_fix legalSufs s (by rw [hp])
        exact this suf hsuf

/-! ### Lemmas: whitespace invariants across normalize_name's pipeline -/

/-- Every whitespace character of `l` is a plain space. -/
def wsOnly (l : Chars) : Prop := ∀ c ∈ l, pyWs c = true → c = ' '

/-- `l` does not end with whitespace. -/
def noTrail (l : Chars) : Prop := ∀ c, l.getLast? = some c → pyWs c = false

theorem wsOnly_of_subset {l₁ l₂ : Chars} (h : l₂ ⊆ l₁) (hw : wsOnly l₁) : wsOnly l₂ :=
  fun c hc hws => hw c (h hc) hws

theorem lstripC_subset (l : Chars) : lstripC l ⊆ l :=
  (List.dropWhile_sublist pyWs).subset

theorem rstripC_subset (l : Chars) : rstripC l ⊆ l := by
  intro c hc
  unfold rstripC at hc
  rw [List.mem_reverse] at hc
  have := (List.dropWhile_sublist pyWs).subset hc
  rwa [List.mem_reverse] at this

theorem dropSufC_subset (s : Chars) (n : Nat) : dropSufC s n ⊆ s :=
  List.take_subset _ _

theorem wsOnly_squeeze (l : Chars) : wsOnly (squeezeWs l) := by
  induction l with
  | nil => intro c hc; cases hc
  | cons a t ih =>
    cases t with
    | nil =>
      intro c hc hws
      unfold squeezeWs at hc
      by_cases h : pyWs a = true
      · simp only [h, if_true, List.mem_singleton] at hc; exact hc
      · simp only [Bool.not_eq_true] at h
        simp only [h, Bool.false_eq_true, if_false, List.mem_singleton] at hc
        subst hc; rw [hws] at h; cases h
    | cons b t2 =>
      intro c hc hws
      unfold squeezeWs at hc
      by_cases ha : pyWs a = true
      · by_cases hb : pyWs b = true
        · simp only [ha, hb, if_true] at hc
          exact ih c hc hws
        · simp only [Bool.not_eq_true] at hb
          simp only [ha, hb, Bool.false_eq_true, if_true, if_false, List.mem_cons] at hc
          rcases hc with rfl | hc
          · rfl
          · exact ih c hc hws
      · simp only [Bool.not_eq_true] at ha
        simp only [ha, Bool.false_eq_true, if_false, List.mem_cons] at hc
        rcases hc with rfl | hc
        · rw [hws] at ha; cases ha
        · exact ih c hc hws

theorem head?_dropWhile_pyWs (l : Chars) {c : Char}
    (h : (l.dropWhile pyWs).head? = some c) : pyWs c = false := by
  induction l with
  | nil => cases h
  | cons a t ih =>
    rw [List.dropWhile_cons] at h
    by_cases ha : pyWs a = true
    · simp only [ha, if_true] at h; exact ih h
    · simp only [Bool.not_eq_true] at ha
      simp only [ha, Bool.false_eq_true, if_false, List.head?_cons, Option.some.injEq] at h
      subst h; exact ha

theorem noTrail_rstripC (l : Chars) : noTrail (rstripC l) := by
  intro c hc
  unfold rstripC at hc
  rw [← List.head?_reverse, List.reverse_reverse] at hc
  exact head?_dropWhile_pyWs _ hc

theorem getLast?_of_suffix {l₁ l₂ : Chars} (h : l₁ <:+ l₂) (hne : l₁ ≠ []) :
    l₂.getLast? = l₁.getLast? := by
  rcases h with ⟨t, rfl⟩
  rw [List.getLast?_append]
  have : l₁.getLast?.isSome := by
    rw [Option.isSome_iff_ne_none]
    intro hnone
    exact hne (List.getLast?_eq_none_iff.mp hnone)
  rcases Option.isSome_iff_exists.mp this with ⟨c, hc⟩
  rw [hc, Option.or]

theorem noTrail_lstripC {l : Chars} (h : noTrail l) : noTrail (lstripC l) := by
  intro c hc
  by_cases hne : lstripC l = []
  · rw [hne] at hc; cases hc
  · have := getLast?_of_suffix (List.dropWhile_suffix pyWs (l := l)) hne
    exact h c (by rw [this]; exact hc)

theorem rstripC_eq_self {l : Chars} (h : noTrail l) : rstripC l = l := by
  cases hl : l.reverse with
  | nil =>
    have : l = [] := by
      have := congrArg List.reverse hl
      rwa [List.reverse_reverse] at this
    rw [this]; rfl
  | cons c rest =>
    have hlast : l.getLast? = some c := by rw [← List.head?_reverse, hl]; rfl
    have hc : pyWs c = false := h c hlast
    unfold rstripC
    rw [hl, List.dropWhile_cons]
    simp only [hc, Bool.false_eq_true, if_false]
    rw [← hl, List.reverse_reverse]

theorem stripPass_invar (L : List Chars) (s : Chars) (ch : Bool)
    (hw : wsOnly s) (ht : noTrail s) :
    wsOnly (stripPass L s ch).1 ∧ noTrail (stripPass L s ch).1 := by
  induction L generalizing s ch with
  | nil => exact ⟨hw, ht⟩
  | cons suf rest ih =>
    unfold stripPass
    by_cases h : endsWithC s suf = true
    · simp only [h, if_true]
      exact ih _ _
        (wsOnly_of_subset (fun c hc => dropSufC_subset s suf.length (rstripC_subset _ hc)) hw)
        (noTrail_rstripC _)
    · simp only [Bool.not_eq_true] at h
      simp only [h, Bool.false_eq_true, if_false]
      exact ih _ _ hw ht

theorem stripLoop_invar (n : Nat) (s : Chars) (hw : wsOnly s) (ht : noTrail s) :
    wsOnly (stripLoop n s) ∧ noTrail (stripLoop n s) := by
  induction n generalizing s with
  | zero => exact ⟨hw, ht⟩
  | succ m ih =>
    unfold stripLoop
    by_cases he : s.isEmpty = true
    · simp only [he, if_true]; exact ⟨hw, ht⟩
    · simp only [Bool.not_eq_true] at he
      simp only [he, Bool.false_eq_true, if_false]
      rcases hp : stripPass legalSufs s false with ⟨s', ch⟩
      cases ch with
      | true =>
        have := stripPass_invar legalSufs s false hw ht
        rw [hp] at this
        exact ih s' this.1 this.2
      | false => exact ⟨hw, ht⟩

theorem regionalTry_subset (alts : List Chars) (s : Chars) : regionalTry alts s ⊆ s := by
  induction alts generalizing s with
  | nil => exact fun c hc => hc
  | cons alt rest ih =>
    unfold regionalTry
    by_cases h : endsWithC s alt = true
    · simp only [h, if_true]
      rcases hu : (rstripC (dropSufC s alt.length)).getLast? with - | d
      · exact ih s
      · by_cases hd : enrichDashes.contains d = true
        · simp only [hd, if_true]
          intro c hc
          exact dropSufC_subset s alt.length (rstripC_subset _
            (dropSufC_subset _ 1 (rstripC_subset _ hc)))
        · simp only [Bool.not_eq_true] at hd
          simp only [hd, Bool.false_eq_true, if_false]
          exact ih s
    · simp only [Bool.not_eq_true] at h
      simp only [h, Bool.false_eq_true, if_false]
      exact ih s

/-! ### Lemmas: the final whitespace collapse cannot create a new
space-plus-suffix ending -/

theorem squeeze_ne_nil {l : Chars} (h : l ≠ []) : squeezeWs l ≠ [] := by
  induction l with
  | nil => exact absurd rfl h
  | cons a t ih =>
    cases t with
    | nil =>
      unfold squeezeWs
      by_cases ha : pyWs a = true
      · simp [ha]
      · simp only [Bool.not_eq_true] at ha; simp [ha]
    | cons b t2 =>
      unfold squeezeWs
      by_cases ha : pyWs a = true
      · by_cases hb : pyWs b = true
        · simp only [ha, hb, if_true]; exact ih (by simp)
        · simp only [Bool.not_eq_true] at hb
          simp [ha, hb]
      · simp only [Bool.not_eq_true] at ha
        simp [ha]

theorem squeeze_head_ws (t : Chars) (b : Char) (hb : pyWs b = true) :
    ∃ r, squeezeWs (b :: t) = ' ' :: r := by
  induction t generalizing b with
  | nil => exact ⟨[], by unfold squeezeWs; simp [hb]⟩
  | cons c t2 ih =>
    unfold squeezeWs
    by_cases hc : pyWs c = true
    · simp only [hb, hc, if_true]
      exact ih c hc
    · simp only [Bool.not_eq_true] at hc
      simp only [hb, hc, Bool.false_eq_true, if_true, if_false]
      exact ⟨squeezeWs (c :: t2), rfl⟩

theorem squeeze_id_of_noWs {l : Chars} (h : ∀ c ∈ squeezeWs l, pyWs c = false) :
    squeezeWs l = l := by
  induction l with
  | nil => rfl
  | cons a t ih =>
    cases t with
    | nil =>
      unfold squeezeWs at h ⊢
      by_cases ha : pyWs a = true
      · exfalso
        have := h ' ' (by simp [ha])
        simp [pyWs] at this
      · simp only [Bool.not_eq_true] at ha; simp [ha]
    | cons b t2 =>
      unfold squeezeWs at h ⊢
      by_cases ha : pyWs a = true
      · exfalso
        by_cases hb : pyWs b = true
        · simp only [ha, hb, if_true] at h
          rcases squeeze_head_ws t2 b hb with ⟨r, hr⟩
          have := h ' ' (by rw [hr]; simp)
          simp [pyWs] at this
        · simp only [Bool.not_eq_true] at hb
          simp only [ha, hb, Bool.false_eq_true, if_true, if_false] at h
          have := h ' ' (by simp)
          simp [pyWs] at this
      · simp only [Bool.not_eq_true] at ha
        simp only [ha, Bool.false_eq_true, if_false] at h ⊢
        rw [ih (fun c hc => h c (by simp [hc]))]

theorem squeeze_suffix_transfer {l w : Chars} (hw : wsOnly l) (hne : w ≠ [])
    (hwf : ∀ c ∈ w, pyWs c = false) (h : (' ' :: w) <:+ squeezeWs l) :
    (' ' :: w) <:+ l := by
  induction l with
  | nil =>
    rw [show squeezeWs [] = [] from rfl, List.suffix_nil] at h
    cases h
  | cons a t ih =>
    cases t with
    | nil =>
      exfalso
      have h1 : (squeezeWs [a]).length = 1 := by
        unfold squeezeWs
        by_cases ha : pyWs a = true
        · simp [ha]
        · simp only [Bool.not_eq_true] at ha; simp [ha]
      have hlen := h.length_le
      rw [h1] at hlen
      have h2 : 2 ≤ (' ' :: w).length := by
        cases w with
        | nil => exact absurd rfl hne
        | cons c cs => simp
      omega
    | cons b t2 =>
      have hwt : wsOnly (b :: t2) := wsOnly_of_subset (fun c hc => by simp [List.mem_cons] at hc ⊢; tauto) hw
      unfold squeezeWs at h
      by_cases ha : pyWs a = true
      · by_cases hb : pyWs b = true
        · simp only [ha, hb, if_true] at h
          exact List.suffix_cons_iff.mpr (Or.inr (ih hwt h))
        · simp only [Bool.not_eq_true] at hb
          simp only [ha, hb, Bool.false_eq_true, if_true, if_false] at h
          rcases List.suffix_cons_iff.mp h with heq | hsuf
          · -- ' ' :: w = ' ' :: squeezeWs (b :: t2), so w is whitespace-free
            have hwq : w = squeezeWs (b :: t2) := (List.cons.inj heq).2
            have : squeezeWs (b :: t2) = b :: t2 := by
              apply squeeze_id_of_noWs
              intro c hc
              exact hwf c (by rw [hwq]; exact hc)
            have haSp : a = ' ' := hw a (by simp) ha
            rw [haSp, hwq, this]
          · exact List.suffix_cons_iff.mpr (Or.inr (ih hwt hsuf))
      · simp only [Bool.not_eq_true] at ha
        simp only [ha, Bool.false_eq_true, if_false] at h
        rcases List.suffix_cons_iff.mp h with heq | hsuf
        · exfalso
          have hsp : ' ' = a := (List.cons.inj heq).1
          rw [← hsp] at ha
          simp [pyWs] at ha
        · exact List.suffix_cons_iff.mpr (Or.inr (ih hwt hsuf))

theorem getLast?_cons_ne {α : Type} (a : α) (t : List α) (h : t ≠ []) :
    (a :: t).getLast? = t.getLast? := by
  have he : a :: t = [a] ++ t := rfl
  rw [he, List.getLast?_append]
  rcases ht : t.getLast? with - | c
  · exact absurd (List.getLast?_eq_none_iff.mp ht) h
  · rw [Option.or]

theorem noTrail_squeeze {l : Chars} (h : noTrail l) : noTrail (squeezeWs l) := by
  induction l with
  | nil => intro c hc; cases hc
  | cons a t ih =>
    cases t with
    | nil =>
      intro c hc
      unfold squeezeWs at hc
      by_cases ha : pyWs a = true
      · exfalso
        have := h a (by rfl)
        rw [this] at ha
        cases ha
      · simp only [Bool.not_eq_true] at ha
        simp only [ha, Bool.false_eq_true, if_false] at hc
        have hca : c = a := by
          have : ([a] : Chars).getLast? = some a := rfl
          rw [this, Option.some.injEq] at hc
          exact hc.symm
        rw [hca]; exact ha
    | cons b t2 =>
      have hts : noTrail (b :: t2) := by
        intro c hc
        exact h c (by rw [List.getLast?_cons_cons]; exact hc)
      have hnn : squeezeWs (b :: t2) ≠ [] := squeeze_ne_nil (by simp)
      intro c hc
      unfold squeezeWs at hc
      by_cases ha : pyWs a = true
      · by_cases hb : pyWs b = true
        · simp only [ha, hb, if_true] at hc
          exact ih hts c hc
        · simp only [Bool.not_eq_true] at hb
          simp only [ha, hb, Bool.false_eq_true, if_true, if_false] at hc
          rw [getLast?_cons_ne _ _ hnn] at hc
          exact ih hts c hc
      · simp only [Bool.not_eq_true] at ha
        simp only [ha, Bool.false_eq_true, if_false] at hc
        rw [getLast?_cons_ne _ _ hnn] at hc
        exact ih hts c hc

theorem legalSufs_shape : ∀ suf ∈ legalSufs,
    suf.head? = some ' ' ∧ suf.tail ≠ [] ∧ ∀ c ∈ suf.tail, pyWs c = false := by decide

/-- Claim C3, corrected.  As stated the claim is false (see
C3_counterexample): the source strips each listed suffix only together with
a leading space, so an input that normalises to a suffix word alone keeps
it.  Amended claim: the result of normalize_name never ends with a space
followed by a listed legal suffix — equivalently, a listed suffix never
survives as the trailing word of a multi-word result; stripping is repeated
until no space-prefixed suffix remains at the end of the string. -/
theorem C3_normalize_name_no_spaced_suffix (name : String) (suf : Chars)
    (hsuf : suf ∈ legalSufs) : endsWithC (normalize_name name).data suf = false := by
  obtain ⟨hhead, htne, hwf⟩ := legalSufs_shape suf hsuf
  obtain ⟨w, rfl⟩ : ∃ w, suf = ' ' :: w := by
    cases suf with
    | nil => cases hhead
    | cons c cs =>
      rw [List.head?_cons, Option.some.injEq] at hhead
      exact ⟨cs, by rw [hhead]⟩
  have htne' : w ≠ [] := htne
  have hwf' : ∀ c ∈ w, pyWs c = false := hwf
  have hwC : wsOnly (normCollapsed name) :=
    wsOnly_of_subset (lstripC_subset _)
      (wsOnly_of_subset (rstripC_subset _) (wsOnly_squeeze _))
  have hw5 : wsOnly (normRegional name) :=
    wsOnly_of_subset (lstripC_subset _)
      (wsOnly_of_subset (rstripC_subset _)
        (wsOnly_of_subset (regionalTry_subset _ _) hwC))
  have ht5 : noTrail (normRegional name) := noTrail_lstripC (noTrail_rstripC _)
  obtain ⟨hwt, htt⟩ :=
    stripLoop_invar ((normRegional name).length + 1) (normRegional name) hw5 ht5
  have hfix : ∀ sf ∈ legalSufs,
      endsWithC (stripLoop ((normRegional name).length + 1) (normRegional name)) sf = false :=
    stripLoop_fix _ _ (by omega)
  have hre : (normalize_name name).data = normalizeNameC name := by
    simp only [normalize_name]
  rw [hre]
  unfold normalizeNameC
  rw [rstripC_eq_self (noTrail_squeeze htt)]
  cases hew : endsWithC
      (lstripC (squeezeWs (stripLoop ((normRegional name).length + 1) (normRegional name))))
      (' ' :: w) with
  | false => rfl
  | true =>
    exfalso
    have h1 := endsWithC_iff.mp hew
    have h2 := h1.trans (List.dropWhile_suffix pyWs)
    have h3 := squeeze_suffix_transfer hwt htne' hwf' h2
    have h4 := hfix (' ' :: w) hsuf
    rw [endsWithC_iff.mpr h3] at h4
    cases h4

/-- Claim C3 as stated is false: `normalize_name "inc"` is `"inc"`, whose
trailing word is the listed suffix `inc` (suffixes are stripped only with a
leading space, so a name consisting of a suffix word alone is kept). -/
theorem C3_counterexample :
    normalize_name "inc" = "inc" ∧ endsWithListedSuffixWord (normalize_name "inc") = true := by
  decide

theorem C3_witness :
    endsWithC (normalize_name "Acme Widgets Inc").data (" inc".data) = false :=
  C3_normalize_name_no_spaced_suffix "Acme Widgets Inc" (" inc".data) (by decide)

/-! ### Lemmas and theorems for _extract_domain (claim C4) -/

theorem mem_dropWhile_of_not {α : Type} (p : α → Bool) {a : α} (ha : p a = false)
    {l : List α} (h : a ∈ l) : a ∈ l.dropWhile p := by
  rw [← List.takeWhile_append_dropWhile p l, List.mem_append] at h
  rcases h with h | h
  · rw [List.mem_takeWhile_imp h] at ha; cases ha
  · exact h

theorem mem_stripC {c : Char} (hc : pyWs c = false) (l : Chars) :
    c ∈ stripC l ↔ c ∈ l := by
  constructor
  · intro h
    exact rstripC_subset l (lstripC_subset _ h)
  · intro h
    apply mem_dropWhile_of_not pyWs hc
    unfold rstripC
    rw [List.mem_reverse]
    apply mem_dropWhile_of_not pyWs hc
    rw [List.mem_reverse]
    exact h

theorem containsC_stripC {c : Char} (hc : pyWs c = false) (l : Chars) :
    containsC c (stripC l) = containsC c l := by
  unfold containsC
  cases h : (stripC l).contains c with
  | true =>
    rw [List.elem_iff] at h
    exact (List.elem_iff.mpr ((mem_stripC hc l).mp h)).symm
  | false =>
    cases h2 : l.contains c with
    | false => rfl
    | true =>
      rw [List.elem_iff] at h2
      have h3 : (stripC l).contains c = true :=
        List.elem_iff.mpr ((mem_stripC hc l).mpr h2)
      rw [h3] at h
      cases h

/-- Claim-side description of _extract_domain (claim C4), amended only by
making the whitespace strip explicit: for a non-empty string containing
both `@` and `.`, the lower-cased part after the last `@` of the
whitespace-stripped input; for every other non-empty string, the URL host
name (prepending `https://` when no scheme is present) lower-cased with a
single leading `www.` removed, or `none` when no host can be parsed;
`none` for missing or empty input. -/
def extractDomainSpec (v : Option String) : Option String :=
  match v with
  | none => none
  | some s0 =>
    if s0.isEmpty then none
    else if containsC '@' s0.data && containsC '.' s0.data then
      some (String.mk (toLowerC (afterLastC '@' (stripC s0.data))))
    else
      let s := stripC s0.data
      let t :=
        if startsWithC s "http://".data || startsWithC s "https://".data then s
        else "https://".data ++ s
      match urlHostname t with
      | none => none
      | some h =>
        let host := toLowerC h
        let h2 := if startsWithC host "www.".data then host.drop 4 else host
        if h2.isEmpty then none else some (String.mk h2)

/-- Claim C4 as stated is false at the input "a@b.c " (trailing space):
the source strips the string before splitting, so it returns "b.c", while
the lower-cased substring after the last "@" of the input is "b.c ". -/
theorem C4_counterexample :
    extract_domain (some "a@b.c ") = some "b.c" ∧
    String.mk (toLowerC (afterLastC '@' "a@b.c ".data)) = "b.c " ∧
    ("b.c" : String) ≠ "b.c " := by
  refine ⟨by decide, by decide, by decide⟩

/-- Claim C4, amended: _extract_domain behaves exactly as the claim
describes once the email branch is read on the whitespace-stripped input
(extractDomainSpec).  In particular: `none` for `None`/empty input; the
lower-cased after-last-`@` part for strings containing `@` and `.`; the
host name with `https://` prepended when no scheme is present, lower-cased,
a single leading `www.` removed, and `none` when no host parses,
otherwise. -/
theorem C4_extract_domain_spec (v : Option String) :
    extract_domain v = extractDomainSpec v := by
  cases v with
  | none => rfl
  | some s0 =>
    unfold extract_domain extractDomainSpec
    by_cases he : s0.isEmpty = true
    · simp only [he, if_true]
    · simp only [Bool.not_eq_true] at he
      simp only [he, Bool.false_eq_true, if_false]
      rw [containsC_stripC (by decide) s0.data, containsC_stripC (by decide) s0.data]

/-! ### Lemmas and theorem for resolve_account_id (claim C1) -/

theorem char_eq_iff_toNat {c d : Char} : c = d ↔ c.toNat = d.toNat := by
  constructor
  · intro h; rw [h]
  · intro h
    rw [← Char.ofNat_toNat c, h, Char.ofNat_toNat]

theorem pyWs_iff {c : Char} : pyWs c = true ↔
    (c.toNat = 32 ∨ c.toNat = 9 ∨ c.toNat = 10 ∨ c.toNat = 13 ∨
     c.toNat = 11 ∨ c.toNat = 12 ∨ c.toNat = 160) := by
  unfold pyWs
  simp only [Bool.or_eq_true, beq_iff_eq]
  rw [char_eq_iff_toNat, char_eq_iff_toNat, char_eq_iff_toNat, char_eq_iff_toNat,
      char_eq_iff_toNat, char_eq_iff_toNat, char_eq_iff_toNat]
  have e1 : (' ' : Char).toNat = 32 := rfl
  have e2 : ('\t' : Char).toNat = 9 := rfl
  have e3 : ('\n' : Char).toNat = 10 := rfl
  have e4 : ('\r' : Char).toNat = 13 := rfl
  have e5 : (Char.ofNat 11).toNat = 11 := rfl
  have e6 : (Char.ofNat 12).toNat = 12 := rfl
  have e7 : (Char.ofNat 160).toNat = 160 := rfl
  rw [e1, e2, e3, e4, e5, e6, e7]
  tauto

theorem pyWs_ofNat_false (n : Nat) (h1 : 97 ≤ n) (h2 : n ≤ 122) :
    pyWs (Char.ofNat n) = false := by
  interval_cases n <;> decide

theorem pyWs_toLower (c : Char) : pyWs (Char.toLower c) = pyWs c := by
  unfold Char.toLower
  by_cases h : c.toNat ≥ 65 ∧ c.toNat ≤ 90
  · rw [if_pos h]
    rw [pyWs_ofNat_false (c.toNat + 32) (by omega) (by omega)]
    cases hc : pyWs c with
    | false => rfl
    | true =>
      rw [pyWs_iff] at hc
      omega
  · rw [if_neg h]

theorem lstripC_eq_self {l : Chars} (h : ∀ c, l.head? = some c → pyWs c = false) :
    lstripC l = l := by
  cases l with
  | nil => rfl
  | cons c t =>
    unfold lstripC
    rw [List.dropWhile_cons]
    simp [h c rfl]

theorem stripC_idem (l : Chars) : stripC (stripC l) = stripC l := by
  have hT : noTrail (stripC l) := noTrail_lstripC (noTrail_rstripC l)
  show lstripC (rstripC (stripC l)) = stripC l
  rw [rstripC_eq_self hT]
  exact lstripC_eq_self (fun c hc => head?_dropWhile_pyWs (rstripC l) hc)

theorem wordsAux_ne_nil (cs : Chars) (acc : Chars) (hacc : acc ≠ []) :
    ∃ w rest, wordsAux acc cs = w :: rest ∧ w ≠ [] := by
  induction cs generalizing acc with
  | nil =>
    refine ⟨acc.reverse, [], ?_, by simp [hacc]⟩
    unfold wordsAux
    have : acc.isEmpty = false := by
      cases acc with
      | nil => exact absurd rfl hacc
      | cons a t => rfl
    simp [this]
  | cons c cs ih =>
    unfold wordsAux
    by_cases hc : pyWs c = true
    · have : acc.isEmpty = false := by
        cases acc with
        | nil => exact absurd rfl hacc
        | cons a t => rfl
      simp only [hc, if_true, this, Bool.false_eq_true, if_false]
      exact ⟨acc.reverse, wordsAux [] cs, rfl, by simp [hacc]⟩
    · simp only [Bool.not_eq_true] at hc
      simp only [hc, Bool.false_eq_true, if_false]
      exact ih (c :: acc) (by simp)

theorem joinSpace_ne_nil {w : Chars} {rest : List Chars} (hw : w ≠ []) :
    joinSpace (w :: rest) ≠ [] := by
  cases rest with
  | nil => exact hw
  | cons w2 ws =>
    unfold joinSpace
    intro h
    rcases List.append_eq_nil.mp h with ⟨h1, -⟩
    exact hw h1

theorem data_ne_nil_of_ne_empty {s : String} (h : s ≠ "") : s.data ≠ [] := by
  intro hd
  apply h
  have h2 : String.mk s.data = String.mk [] := by rw [hd]
  exact h2

theorem mk_ne_empty_of_ne_nil {l : Chars} (h : l ≠ []) : String.mk l ≠ "" := by
  intro hm
  apply h
  have := congrArg String.data hm
  exact this

/-- A sanitized non-empty cell has a non-empty normalised name: the value is
whitespace-stripped, so its first character is not whitespace and survives
lowering and splitting. -/
theorem normNameStr_ne_empty {v : Option String} {s : String}
    (hv : sanitize v = some s) (hs : s ≠ "") : normNameStr s ≠ "" := by
  obtain ⟨s0, rfl⟩ : ∃ s0, v = some s0 := by
    cases v with
    | none => cases hv
    | some s0 => exact ⟨s0, rfl⟩
  have hsd : s.data = stripC s0.data := by
    unfold sanitize at hv
    have hv2 : (if toLowerC (String.mk (stripC s0.data)).data = "nan".data then none
        else some (String.mk (stripC s0.data))) = some s := hv
    split at hv2
    · cases hv2
    · have h2 := Option.some.inj hv2
      rw [← h2]
  have hstrip : stripC s.data = s.data := by rw [hsd]; exact stripC_idem s0.data
  obtain ⟨c, rest, hcr⟩ : ∃ c rest, s.data = c :: rest := by
    rcases hd : s.data with - | ⟨c, rest⟩
    · exact absurd hd (data_ne_nil_of_ne_empty hs)
    · exact ⟨c, rest, rfl⟩
  have hcws : pyWs c = false := by
    apply head?_dropWhile_pyWs (rstripC s0.data)
    show (lstripC (rstripC s0.data)).head? = some c
    rw [show lstripC (rstripC s0.data) = stripC s0.data from rfl, ← hsd, hcr]
    rfl
  unfold normNameStr
  apply mk_ne_empty_of_ne_nil
  rw [hstrip, hcr]
  show joinSpace (wordsC (Char.toLower c :: toLowerC rest)) ≠ []
  have hlc : pyWs (Char.toLower c) = false := by rw [pyWs_toLower]; exact hcws
  unfold wordsC wordsAux
  rw [hlc]
  simp only [Bool.false_eq_true, if_false]
  obtain ⟨w, wrest, hw, hwne⟩ := wordsAux_ne_nil (toLowerC rest) [Char.toLower c] (by simp)
  rw [hw]
  exact joinSpace_ne_nil hwne

theorem upsert_account_creates (net : Net) (name : Option String) (maps : Maps)
    (extra : ExtraAcct) (hT : pyTruthy name = true)
    (hlk : lookupM maps.accounts ((norm_name name).getD "") = none) :
    (upsert_account net name maps extra).reqs =
      [.acctCreate (buildAcctPayload name extra)] := by
  unfold upsert_account
  rw [hT]
  simp only [Bool.not_true, Bool.false_eq_true, if_false]
  rw [hlk]
  rcases hac : net.acct (buildAcctPayload name extra) with e | accId <;> rfl

/-- Claim C1: resolve_account_id resolves in the priority order company
name, then website domain, then email domain.  (1) If the
whitespace-collapsed lower-cased company name is a key of accounts_map it
returns the mapped account id, issues no request (so creates nothing) and
leaves both maps unchanged; (2)–(3) otherwise a website-domain (then
email-domain) match returns the mapped id the same way; (4) with no match
it issues an account-creation request exactly when a (sanitized) company
name is present, and returns None with both maps unchanged when none is. -/
theorem C1_resolve_account_id (net : Net) (row : CRow) (maps : Maps) :
    (∀ accId, nameHitOf row maps = some accId →
        resolve_account_id net row maps = ⟨.ok (some accId), maps, []⟩) ∧
    (∀ accId, nameHitOf row maps = none → webHitOf row maps = some accId →
        resolve_account_id net row maps = ⟨.ok (some accId), maps, []⟩) ∧
    (∀ accId, nameHitOf row maps = none → webHitOf row maps = none →
        emailHitOf row maps = some accId →
        resolve_account_id net row maps = ⟨.ok (some accId), maps, []⟩) ∧
    (nameHitOf row maps = none → webHitOf row maps = none →
        emailHitOf row maps = none →
      ((∃ p, Req.acctCreate p ∈ (resolve_account_id net row maps).reqs) ↔
          pyTruthy (sanitize row.accountname) = true) ∧
      (pyTruthy (sanitize row.accountname) = false →
          resolve_account_id net row maps = ⟨.ok none, maps, []⟩)) := by
  refine ⟨?_, ?_, ?_, ?_⟩
  · intro accId h
    unfold resolve_account_id
    rw [h]
  · intro accId h1 h2
    unfold resolve_account_id
    rw [h1, h2]
  · intro accId h1 h2 h3
    unfold resolve_account_id
    rw [h1, h2, h3]
  · intro h1 h2 h3
    have hres : resolve_account_id net row maps =
        (if pyTruthy (sanitize row.accountname) then
          upsert_account net (sanitize row.accountname) maps
            ⟨sanitize row.websiteurl, sanitize row.city, sanitize row.state,
             sanitize row.country⟩
        else ⟨.ok none, maps, []⟩) := by
      unfold resolve_account_id
      rw [h1, h2, h3]
    refine ⟨⟨?_, ?_⟩, ?_⟩
    · rintro ⟨p, hp⟩
      cases hco : pyTruthy (sanitize row.accountname) with
      | true => rfl
      | false =>
        rw [hres, hco] at hp
        simp only [Bool.false_eq_true, if_false] at hp
        cases hp
    · intro hco
      rw [hres, hco]
      simp only [if_true]
      obtain ⟨sc, hsan, hsne⟩ : ∃ sc, sanitize row.accountname = some sc ∧ sc ≠ "" := by
        rcases hs : sanitize row.accountname with - | sc
        · rw [hs] at hco; cases hco
        · refine ⟨sc, rfl, ?_⟩
          rw [hs] at hco
          have hco2 : (!sc.isEmpty) = true := hco
          intro he
          rw [he] at hco2
          cases hco2
      have hscE : sc.isEmpty = false := by
        cases hie : sc.isEmpty with
        | false => rfl
        | true => exact absurd ((String.isEmpty_iff sc).mp hie) hsne
      have hnn2 : norm_name (some sc) = some (normNameStr sc) := by
        show (if sc.isEmpty = true then none else some (normNameStr sc)) = some (normNameStr sc)
        rw [hscE]
        simp only [Bool.false_eq_true, if_false]
      have hnne : normNameStr sc ≠ "" := normNameStr_ne_empty hsan hsne
      have hkT : pyTruthy (some (normNameStr sc)) = true := by
        show (!(normNameStr sc).isEmpty) = true
        cases hie : (normNameStr sc).isEmpty with
        | false => rfl
        | true => exact absurd ((String.isEmpty_iff _).mp hie) hnne
      have hlk : lookupM maps.accounts (normNameStr sc) = none := by
        unfold nameHitOf at h1
        rw [hsan, hnn2, hkT, if_pos rfl] at h1
        simp only [Option.getD_some] at h1
        exact h1
      rw [hsan]
      have hT : pyTruthy (some sc) = true := by
        show (!sc.isEmpty) = true
        rw [hscE]
        rfl
      rw [upsert_account_creates net (some sc) maps _ hT (by rw [hnn2]; exact hlk)]
      exact ⟨_, List.mem_singleton_self _⟩
    · intro hco
      rw [hres, hco]
      simp only [Bool.false_eq_true, if_false]

theorem C1_witness :
    resolve_account_id ⟨fun _ => .ok "NEW", fun _ => .ok "NEW"⟩
      ⟨none, none, none, some " Acme  Corp ", none, none, none, none, none, none⟩
      ⟨[("acme corp", "ID1")], []⟩ =
      ⟨.ok (some "ID1"), ⟨[("acme corp", "ID1")], []⟩, []⟩ :=
  (C1_resolve_account_id ⟨fun _ => .ok "NEW", fun _ => .ok "NEW"⟩
      ⟨none, none, none, some " Acme  Corp ", none, none, none, none, none, none⟩
      ⟨[("acme corp", "ID1")], []⟩).1 "ID1" (by decide)

/-! ### Lemmas and theorem for the row loops (claim C5) -/

theorem addCounts_zero (c : RunCounts) : addCounts ⟨0, 0, 0⟩ c = c := by
  cases c
  simp [addCounts]

theorem addCounts_assoc (a b c : RunCounts) :
    addCounts (addCounts a b) c = addCounts a (addCounts b c) := by
  simp [addCounts, Nat.add_assoc]

/-- Splitting a row list: the second half is processed from the state the
first half left behind, whatever mix of successes, skips and raised-and-
caught failures the first half produced; counters and request traces add. -/
theorem runRows_append {ρ σ τ : Type} (step : ρ → σ → StepOut σ τ)
    (rows1 rows2 : List ρ) (st : σ) :
    runRows step (rows1 ++ rows2) st =
      (addCounts (runRows step rows1 st).1
         (runRows step rows2 (runRows step rows1 st).2.1).1,
       (runRows step rows2 (runRows step rows1 st).2.1).2.1,
       (runRows step rows1 st).2.2 ++
         (runRows step rows2 (runRows step rows1 st).2.1).2.2) := by
  induction rows1 generalizing st with
  | nil => simp [runRows, addCounts_zero]
  | cons r rs ih =>
    simp only [List.cons_append, runRows, List.append_eq, ih, addCounts_assoc,
      List.append_assoc]

/-- Claim C5: row-level failure handling is print-and-continue, in both
dynamicsContacts.ingest_wiza_file and toDynamics.ingest_file.  (1)/(3): for
any split of the row list, the rows after a prefix are processed from the
state the prefix left, with counters and request traces adding up — in
particular no row-level exception aborts the loop, and the loop (a total
function into counters) propagates none.  (2)/(4): a single row whose body
raises contributes exactly one failure and nothing else. -/
theorem C5_ingest_print_and_continue :
    (∀ (net : Net) (rows1 rows2 : List CRow) (st : ContactsSt),
      ingest_wiza_file net (rows1 ++ rows2) st =
        (addCounts (ingest_wiza_file net rows1 st).1
           (ingest_wiza_file net rows2 (ingest_wiza_file net rows1 st).2.1).1,
         (ingest_wiza_file net rows2 (ingest_wiza_file net rows1 st).2.1).2.1,
         (ingest_wiza_file net rows1 st).2.2 ++
           (ingest_wiza_file net rows2 (ingest_wiza_file net rows1 st).2.1).2.2)) ∧
    (∀ (net : Net) (row : CRow) (st : ContactsSt) (e : Unit),
      (wizaRowStep net row st).res = .error e →
      (ingest_wiza_file net [row] st).1 = ⟨0, 0, 1⟩) ∧
    (∀ (net : TDNet) (rows1 rows2 : List JobRow),
      ingest_file_td net (rows1 ++ rows2) =
        (addCounts (ingest_file_td net rows1).1 (ingest_file_td net rows2).1,
         (ingest_file_td net rows2).2.1,
         (ingest_file_td net rows1).2.2 ++ (ingest_file_td net rows2).2.2)) ∧
    (∀ (net : TDNet) (row : JobRow) (e : Unit),
      (tdRowStep net row ()).res = .error e →
      (ingest_file_td net [row]).1 = ⟨0, 0, 1⟩) := by
  refine ⟨?_, ?_, ?_, ?_⟩
  · intro net rows1 rows2 st
    exact runRows_append (wizaRowStep net) rows1 rows2 st
  · intro net row st e h
    show (runRows (wizaRowStep net) [row] st).1 = (⟨0, 0, 1⟩ : RunCounts)
    simp only [runRows, h]
    rfl
  · intro net rows1 rows2
    exact runRows_append (tdRowStep net) rows1 rows2 ()
  · intro net row e h
    show (runRows (tdRowStep net) [row] ()).1 = (⟨0, 0, 1⟩ : RunCounts)
    simp only [runRows, h]
    rfl

theorem C5_witness :
    (ingest_file_td
      ⟨fun _ => none, fun _ => .error (), fun _ => none, fun _ => .error (),
       fun _ => .error (), fun _ => none, fun _ => .error ()⟩
      [{ companyName := .vStr "FailCo", contactName := .vNone, location := .vNone,
         jobTitle := .vStr "Dev", salary := .vNone, jobLink := .vNone,
         source := .vNone, tags := .vNone, dateAdded := .vNone, dateApplied := .vNone,
         dateInterviewed := .vNone, dateOffered := .vNone, dateRejected := .vNone }]).1 =
      ⟨0, 0, 1⟩ :=
  C5_ingest_print_and_continue.2.2.2
    ⟨fun _ => none, fun _ => .error (), fun _ => none, fun _ => .error (),
     fun _ => .error (), fun _ => none, fun _ => .error ()⟩
    { companyName := .vStr "FailCo", contactName := .vNone, location := .vNone,
      jobTitle := .vStr "Dev", salary := .vNone, jobLink := .vNone,
      source := .vNone, tags := .vNone, dateAdded := .vNone, dateApplied := .vNone,
      dateInterviewed := .vNone, dateOffered := .vNone, dateRejected := .vNone }
    () (by rfl)

/-! ### Lemmas and theorem for the non-English skip (claim C9) -/

theorem upsert_account_reqs_acct (net : Net) (name : Option String) (maps : Maps)
    (extra : ExtraAcct) :
    ∀ q ∈ (upsert_account net name maps extra).reqs, ∃ p, q = .acctCreate p := by
  intro q hq
  unfold upsert_account at hq
  split at hq
  · cases hq
  · split at hq
    · cases hq
    · split at hq
      · rw [List.mem_singleton] at hq
        exact ⟨_, hq⟩
      · rw [List.mem_singleton] at hq
        exact ⟨_, hq⟩

theorem resolve_reqs_acct (net : Net) (row : CRow) (maps : Maps) :
    ∀ q ∈ (resolve_account_id net row maps).reqs, ∃ p, q = .acctCreate p := by
  intro q hq
  unfold resolve_account_id at hq
  split at hq
  · cases hq
  · split at hq
    · cases hq
    · split at hq
      · cases hq
      · split at hq
        · exact upsert_account_reqs_acct net _ maps _ q hq
        · cases hq

theorem upsert_contact_reqs (net : Net) (pc : ContactPayload)
    (be bf : List (String × String)) :
    ∀ q ∈ (upsert_contact net pc be bf).reqs, q = .contactCreate pc := by
  intro q hq
  unfold upsert_contact at hq
  by_cases hc : pyTruthy (contactHit pc be bf) = true
  · rw [if_pos hc] at hq
    have hq2 : q ∈ ([] : List Req) := hq
    cases hq2
  · rw [if_neg hc] at hq
    rcases hnc : net.contact pc with e | cid <;> rw [hnc] at hq <;>
    · have hq2 : q ∈ [Req.contactCreate pc] := hq
      exact List.mem_singleton.mp hq2

theorem is_non_english_filterNE (v : Option String) :
    is_non_english (filterNE v) = is_non_english v := by
  cases v with
  | none => rfl
  | some s =>
    show is_non_english (if s.isEmpty = true then none else some s) = is_non_english (some s)
    by_cases h : s.isEmpty = true
    · rw [if_pos h]
      show false = (if s.isEmpty = true then false else s.data.any (fun c => c.val ≥ 128))
      rw [if_pos h]
    · rw [if_neg h]

theorem contactReq_ascii_aux (net : Net) (row : CRow) (maps : Maps)
    (p pc : ContactPayload)
    (hfn : pc.firstname = filterNE (sanitize row.firstname))
    (hln : pc.lastname = filterNE (sanitize row.lastname))
    (hne1 : is_non_english (sanitize row.firstname) = false)
    (hne2 : is_non_english (sanitize row.lastname) = false)
    (be bf : List (String × String))
    (hp : Req.contactCreate p ∈
      (resolve_account_id net row maps).reqs ++ (upsert_contact net pc be bf).reqs) :
    is_non_english p.firstname = false ∧ is_non_english p.lastname = false := by
  rcases List.mem_append.mp hp with h | h
  · obtain ⟨p2, hp2⟩ := resolve_reqs_acct net row maps _ h
    cases hp2
  · have hq := upsert_contact_reqs net pc be bf _ h
    have hpe := Req.contactCreate.inj hq
    rw [hpe, hfn, hln]
    constructor
    · rw [is_non_english_filterNE]
      exact hne1
    · rw [is_non_english_filterNE]
      exact hne2

theorem wizaRowStep_contact_ascii (net : Net) (row : CRow) (st : ContactsSt)
    (p : ContactPayload) (hp : Req.contactCreate p ∈ (wizaRowStep net row st).reqs) :
    is_non_english p.firstname = false ∧ is_non_english p.lastname = false := by
  unfold wizaRowStep at hp
  by_cases hne : (is_non_english (sanitize row.firstname) ||
      is_non_english (sanitize row.lastname)) = true
  · rw [if_pos hne] at hp
    have hp2 : Req.contactCreate p ∈ ([] : List Req) := hp
    cases hp2
  · rw [if_neg hne] at hp
    have hne0 : (is_non_english (sanitize row.firstname) ||
        is_non_english (sanitize row.lastname)) = false := by
      cases h : (is_non_english (sanitize row.firstname) ||
          is_non_english (sanitize row.lastname)) with
      | false => rfl
      | true => exact absurd h hne
    have hne2 := Bool.or_eq_false_iff.mp hne0
    split at hp
    · have hp2 : Req.contactCreate p ∈ (resolve_account_id net row st.maps).reqs := hp
      obtain ⟨p2, hp3⟩ := resolve_reqs_acct net row st.maps _ hp2
      cases hp3
    next accOpt heq =>
      by_cases hacc : (!pyTruthy accOpt) = true
      · rw [if_pos hacc] at hp
        have hp2 : Req.contactCreate p ∈ (resolve_account_id net row st.maps).reqs := hp
        obtain ⟨p2, hp3⟩ := resolve_reqs_acct net row st.maps _ hp2
        cases hp3
      · rw [if_neg hacc] at hp
        by_cases hpc : ((wizaPayload row (accOpt.getD "")).emailaddress1.isNone &&
            (wizaPayload row (accOpt.getD "")).fullname.isNone) = true
        · rw [if_pos hpc] at hp
          have hp2 : Req.contactCreate p ∈ (resolve_account_id net row st.maps).reqs := hp
          obtain ⟨p2, hp3⟩ := resolve_reqs_acct net row st.maps _ hp2
          cases hp3
        · rw [if_neg hpc] at hp
          have hp2 : Req.contactCreate p ∈
              (resolve_account_id net row st.maps).reqs ++
              (upsert_contact net (wizaPayload row (accOpt.getD ""))
                st.byEmail st.byFullname).reqs := by
            split at hp
            · exact hp
            · by_cases hgrew : (st.byEmail.length <
                  (upsert_contact net (wizaPayload row (accOpt.getD ""))
                    st.byEmail st.byFullname).byEmail.length ||
                  st.byFullname.length <
                  (upsert_contact net (wizaPayload row (accOpt.getD ""))
                    st.byEmail st.byFullname).byFullname.length) = true
              · rw [if_pos hgrew] at hp
                exact hp
              · rw [if_neg hgrew] at hp
                exact hp
          exact contactReq_ascii_aux net row st.maps p _ rfl rfl hne2.1 hne2.2 _ _ hp2

/-- Claim C9: (1)–(2) is_non_english is True exactly when the string fails
ASCII encoding (some character is outside ASCII) and False for None or
empty input; (3) a row whose sanitized firstname or lastname is non-English
is skipped unchanged: the body returns the skip outcome (`ok false`, which
the loop counts into skipped_contacts), touches no state and issues no
request — in particular no contact payload is built or sent; (4) across a
whole ingest_wiza_file run, every contact-creation request carries an
ASCII-only firstname and lastname. -/
theorem C9_non_english_skip :
    (∀ s : String, is_non_english (some s) = s.data.any (fun c => c.val ≥ 128)) ∧
    (is_non_english none = false) ∧
    (∀ (net : Net) (row : CRow) (st : ContactsSt),
      (is_non_english (sanitize row.firstname) ||
        is_non_english (sanitize row.lastname)) = true →
      wizaRowStep net row st = ⟨.ok false, st, []⟩ ∧
      (ingest_wiza_file net [row] st).1 = ⟨0, 1, 0⟩) ∧
    (∀ (net : Net) (rows : List CRow) (st : ContactsSt) (p : ContactPayload),
      Req.contactCreate p ∈ (ingest_wiza_file net rows st).2.2 →
      is_non_english p.firstname = false ∧ is_non_english p.lastname = false) := by
  refine ⟨?_, rfl, ?_, ?_⟩
  · intro s
    show (if s.isEmpty = true then false else s.data.any (fun c => c.val ≥ 128)) =
      s.data.any (fun c => c.val ≥ 128)
    by_cases h : s.isEmpty = true
    · rw [if_pos h]
      have hs : s = "" := (String.isEmpty_iff s).mp h
      rw [hs]
      rfl
    · rw [if_neg h]
  · intro net row st hne
    have hstep : wizaRowStep net row st = ⟨.ok false, st, []⟩ := by
      unfold wizaRowStep
      rw [if_pos hne]
    refine ⟨hstep, ?_⟩
    show (runRows (wizaRowStep net) [row] st).1 = (⟨0, 1, 0⟩ : RunCounts)
    simp only [runRows, hstep]
    rfl
  · intro net rows st p
    induction rows generalizing st with
    | nil => intro hp; cases hp
    | cons r rs ih =>
      intro hp
      simp only [ingest_wiza_file, runRows] at hp ih
      rcases List.mem_append.mp hp with h | h
      · exact wizaRowStep_contact_ascii net r st p h
      · exact ih _ h

theorem C9_witness :
    wizaRowStep ⟨fun _ => .ok "A", fun _ => .ok "C"⟩
      ⟨some "Łukasz", some "Kowalski", none, some "Acme", none, none, none, none, none, none⟩
      ⟨⟨[], []⟩, [], []⟩ =
      ⟨.ok false, ⟨⟨[], []⟩, [], []⟩, []⟩ :=
  (C9_non_english_skip.2.2.1 ⟨fun _ => .ok "A", fun _ => .ok "C"⟩
    ⟨some "Łukasz", some "Kowalski", none, some "Acme", none, none, none, none, none, none⟩
    ⟨⟨[], []⟩, [], []⟩ (by decide)).1

/-- Claim C8: excel_serial_to_iso (the identical function of toDynamics.py
and dynamicsAccountsJobs.py) is total over every cell value: it returns an
isoformat string or None and never propagates an exception (the body's
raising paths — pd.isna on array-likes, float() on non-numerics, datetime
overflow — are all caught by the outermost `except` and mapped to None, as
the definition of excel_serial_to_iso shows).  In particular None, NaN,
NaT, non-finite floats, and unparseable strings all yield None; datetimes
yield their isoformat; and every result is either None or a string. -/
theorem C8_excel_serial_total (parseDT : String → Option String)
    (fmtSerial : ℚ → Except Unit String) :
    (excel_serial_to_iso parseDT fmtSerial .vNone = none) ∧
    (excel_serial_to_iso parseDT fmtSerial .vNaN = none) ∧
    (excel_serial_to_iso parseDT fmtSerial .vNaT = none) ∧
    (excel_serial_to_iso parseDT fmtSerial (.vFloat .nan) = none) ∧
    (excel_serial_to_iso parseDT fmtSerial (.vFloat .inf) = none) ∧
    (excel_serial_to_iso parseDT fmtSerial (.vFloat .ninf) = none) ∧
    (∀ s, parseDT s = none →
      excel_serial_to_iso parseDT fmtSerial (.vStr s) = none) ∧
    (∀ iso, excel_serial_to_iso parseDT fmtSerial (.vDT iso) = some iso) ∧
    (∀ b f r, excel_serial_to_iso parseDT fmtSerial (.vOther b f r) = none ∨
      ∃ s, excel_serial_to_iso parseDT fmtSerial (.vOther b f r) = some s) ∧
    (∀ v, excel_serial_to_iso parseDT fmtSerial v = none ∨
      ∃ s, excel_serial_to_iso parseDT fmtSerial v = some s) := by
  refine ⟨rfl, rfl, rfl, rfl, rfl, rfl, ?_, ?_, ?_, ?_⟩
  · intro s h
    have hb : excelSerialBody parseDT fmtSerial (.vStr s) = .ok (parseDT s) := rfl
    show (match excelSerialBody parseDT fmtSerial (.vStr s) with
      | .ok r => r | .error _ => none) = none
    rw [hb, h]
  · intro iso
    rfl
  · intro b f r
    cases hv : excel_serial_to_iso parseDT fmtSerial (.vOther b f r) with
    | none => exact Or.inl rfl
    | some s => exact Or.inr ⟨s, rfl⟩
  · intro v
    cases hv : excel_serial_to_iso parseDT fmtSerial v with
    | none => exact Or.inl rfl
    | some s => exact Or.inr ⟨s, rfl⟩

theorem C8_witness :
    excel_serial_to_iso (fun _ => none) (fun _ => .ok "1899-12-30T00:00:00")
      (.vStr "not a date") = none :=
  (C8_excel_serial_total (fun _ => none)
    (fun _ => .ok "1899-12-30T00:00:00")).2.2.2.2.2.2.1 "not a date" rfl

/-- Claim C2 describes the intended behaviour, but the code has a bug:
dynamicsAccountsJobs.upsert_account calls `log_account_for_export(account_obj)`
with one positional argument, while accountExport.log_account_for_export is
`def log_account_for_export(account_name, account_id, website=None)` and so
requires two.  Every call raises TypeError right after the lookup (or the
creation), so upsert_account never returns the enriched account object and
never records anything for export.  Evaluated here on the account object
with name "Acme Corp": once with a lookup that finds an existing account
and once with a lookup miss followed by a successful POST. -/
theorem C2_upsert_account_jobs_type_error :
    (upsert_account_jobs
      ⟨fun _ => some "11111111-aaaa", fun _ => .ok "22222222-bbbb",
       fun _ => .ok "J", fun _ => none, fun _ => .ok "D"⟩
      [("name", .vStr "Acme Corp"), ("websiteurl", .vStr "https://acme.example")]
      [] =
      ⟨.error typeErrorLogExport, []⟩) ∧
    (upsert_account_jobs
      ⟨fun _ => none, fun _ => .ok "22222222-bbbb",
       fun _ => .ok "J", fun _ => none, fun _ => .ok "D"⟩
      [("name", .vStr "Acme Corp"), ("websiteurl", .vStr "https://acme.example")]
      [] =
      ⟨.error typeErrorLogExport, []⟩) :=
  ⟨rfl, rfl⟩

/-! ### C6: job-link deduplication in dynamicsAccountsJobs -/

theorem setInsert_mem {l : List String} {x y : String} (h : y ∈ l) :
    y ∈ setInsert l x := by
  unfold setInsert
  split
  · exact h
  · exact List.mem_cons_of_mem _ h

theorem setInsert_self (l : List String) (x : String) : x ∈ setInsert l x := by
  unfold setInsert
  split
  · next h => exact List.elem_iff.mp h
  · exact List.mem_cons_self _ _

theorem not_mem_of_contains_false {l : List String} {x : String}
    (h : l.contains x = false) : x ∉ l := by
  intro hm
  have h2 : l.contains x = true := List.elem_iff.mpr hm
  rw [h2] at h
  simp at h

theorem postedLinks_error {row : JobRow} {o : JCJOut} {e : Unit}
    (h : o.res = .error e) : postedLinks row o = [] := by
  unfold postedLinks
  rw [h]

theorem postedLinks_okFalse {row : JobRow} {o : JCJOut}
    (h : o.res = .ok false) : postedLinks row o = [] := by
  unfold postedLinks
  rw [h]

theorem postedLinks_okTrue {row : JobRow} {o : JCJOut}
    (h : o.res = .ok true) :
    postedLinks row o = if jobLinkValid row then [jobLinkOf row] else [] := by
  unfold postedLinks
  rw [h]

theorem create_job_skip (net : JNet) (row : JobRow) (a : String)
    (c : Option String) (links : List String) (hv : jobLinkValid row = true)
    (hc : links.contains (jobLinkOf row) = true) :
    create_job net row a c links = ⟨.ok false, links, []⟩ := by
  unfold create_job
  rw [hv, hc]
  rfl

theorem create_job_links (net : JNet) (row : JobRow) (a : String)
    (c : Option String) (links : List String) :
    (create_job net row a c links).links =
      if jobLinkValid row then setInsert links (jobLinkOf row) else links := by
  cases hv : jobLinkValid row with
  | false =>
    unfold create_job
    rw [hv]
    rw [if_neg (by simp)]
    split
    · rfl
    · split <;> rfl
  | true =>
    cases hc : links.contains (jobLinkOf row) with
    | true =>
      rw [create_job_skip net row a c links hv hc, if_pos rfl]
      unfold setInsert
      rw [if_pos hc]
    | false =>
      unfold create_job
      rw [hv, hc]
      rw [if_neg (by simp)]
      split
      · rfl
      · split <;> rfl

theorem create_job_links_mono (net : JNet) (row : JobRow) (a : String)
    (c : Option String) (links : List String) {l : String} (h : l ∈ links) :
    l ∈ (create_job net row a c links).links := by
  rw [create_job_links]
  split
  · exact setInsert_mem h
  · exact h

theorem create_job_posted (net : JNet) (row : JobRow) (a : String)
    (c : Option String) (links : List String)
    (hr : (create_job net row a c links).res = .ok true)
    (hv : jobLinkValid row = true) :
    links.contains (jobLinkOf row) = false := by
  cases hc : links.contains (jobLinkOf row) with
  | false => rfl
  | true =>
    rw [create_job_skip net row a c links hv hc] at hr
    simp at hr

theorem runCreateJobs_nodup (net : JNet) :
    ∀ (ts : List (JobRow × String × Option String)) (links : List String),
      (runCreateJobs net ts links).1.Nodup ∧
        ∀ l ∈ (runCreateJobs net ts links).1, l ∉ links
  | [], links => ⟨List.nodup_nil, fun l h => absurd h (List.not_mem_nil l)⟩
  | (row, a, c) :: rest, links => by
    obtain ⟨IH1, IH2⟩ :=
      runCreateJobs_nodup net rest (create_job net row a c links).links
    have hmono : ∀ x ∈ links, x ∈ (create_job net row a c links).links :=
      fun x hx => create_job_links_mono net row a c links hx
    simp only [runCreateJobs]
    rcases hres : (create_job net row a c links).res with e | b
    · rw [postedLinks_error hres, List.nil_append]
      exact ⟨IH1, fun l hl hml => IH2 l hl (hmono l hml)⟩
    · cases b with
      | false =>
        rw [postedLinks_okFalse hres, List.nil_append]
        exact ⟨IH1, fun l hl hml => IH2 l hl (hmono l hml)⟩
      | true =>
        rw [postedLinks_okTrue hres]
        by_cases hv : jobLinkValid row = true
        · rw [if_pos hv, List.singleton_append]
          have hnotin : links.contains (jobLinkOf row) = false :=
            create_job_posted net row a c links hres hv
          have hself : jobLinkOf row ∈ (create_job net row a c links).links := by
            rw [create_job_links, if_pos hv]
            exact setInsert_self links (jobLinkOf row)
          constructor
          · exact List.Nodup.cons (fun hmem => IH2 _ hmem hself) IH1
          · intro l hl
            rcases List.mem_cons.mp hl with h | h
            · subst h
              exact not_mem_of_contains_false hnotin
            · exact fun hml => IH2 l h (hmono l hml)
        · rw [if_neg hv, List.nil_append]
          exact ⟨IH1, fun l hl hml => IH2 l hl (hmono l hml)⟩

theorem preloadStep_mono {acc : List String} {x : String} (l : Option String)
    (h : x ∈ acc) : x ∈ preloadStep acc l := by
  cases l with
  | none => exact h
  | some s =>
    show x ∈ if s.isEmpty = true then acc else setInsert acc (String.mk (stripC s.data))
    by_cases he : s.isEmpty = true
    · rw [if_pos he]
      exact h
    · rw [if_neg he]
      exact setInsert_mem h

theorem preloadFold_mono :
    ∀ (fetched : List (Option String)) (acc : List String) (x : String),
      x ∈ acc → x ∈ fetched.foldl preloadStep acc
  | [], _, _, h => h
  | l :: rest, acc, x, h =>
    preloadFold_mono rest (preloadStep acc l) x (preloadStep_mono l h)

theorem preloadFold_mem :
    ∀ (fetched : List (Option String)) (acc : List String) (s : String),
      some s ∈ fetched → s.isEmpty = false →
      String.mk (stripC s.data) ∈ fetched.foldl preloadStep acc
  | [], _, _, hmem, _ => absurd hmem (List.not_mem_nil _)
  | l :: rest, acc, s, hmem, hne => by
    rcases List.mem_cons.mp hmem with h | h
    · subst h
      refine preloadFold_mono rest (preloadStep acc (some s)) _ ?_
      show String.mk (stripC s.data) ∈
        if s.isEmpty = true then acc else setInsert acc (String.mk (stripC s.data))
      rw [hne, if_neg (by decide)]
      exact setInsert_self acc _
    · exact preloadFold_mem rest (preloadStep acc l) s h hne

/-- **C6**: within one run of dynamicsAccountsJobs.py no two job postings
with the same valid job link (non-empty and not "nan" case-insensitively)
are created: create_job returns without posting when the row's stripped job
link is already in existing_links; otherwise a valid link is added to
existing_links whatever else the call does; existing_links starts as the
preload, which contains every non-empty fetched link, stripped; and over a
whole run the valid links of the jobs actually created are pairwise
distinct and disjoint from the preloaded set. -/
theorem C6_job_link_dedup (net : JNet)
    (ts : List (JobRow × String × Option String))
    (fetched : List (Option String)) :
    (∀ (row : JobRow) (a : String) (c : Option String) (links : List String),
       jobLinkValid row = true → links.contains (jobLinkOf row) = true →
       create_job net row a c links = ⟨.ok false, links, []⟩) ∧
    (∀ (row : JobRow) (a : String) (c : Option String) (links : List String),
       (create_job net row a c links).links =
         if jobLinkValid row then setInsert links (jobLinkOf row) else links) ∧
    (∀ s : String, some s ∈ fetched → s.isEmpty = false →
       String.mk (stripC s.data) ∈ preload_existing_joblinks fetched) ∧
    (runCreateJobs net ts (preload_existing_joblinks fetched)).1.Nodup ∧
    (∀ l ∈ (runCreateJobs net ts (preload_existing_joblinks fetched)).1,
       l ∉ preload_existing_joblinks fetched) :=
  ⟨fun row a c links hv hc => create_job_skip net row a c links hv hc,
   fun row a c links => create_job_links net row a c links,
   fun s h1 h2 => preloadFold_mem fetched [] s h1 h2,
   (runCreateJobs_nodup net ts (preload_existing_joblinks fetched)).1,
   (runCreateJobs_nodup net ts (preload_existing_joblinks fetched)).2⟩

theorem C6_witness :
    (jobLinkValid c6Row = true ∧
       (["https://j.example/1"] : List String).contains (jobLinkOf c6Row) = true ∧
       create_job c6Net c6Row "A" none ["https://j.example/1"] =
         ⟨.ok false, ["https://j.example/1"], []⟩) ∧
    (some "x " ∈ [some ("x " : String)] ∧ ("x " : String).isEmpty = false ∧
       String.mk (stripC ("x " : String).data) ∈
         preload_existing_joblinks [some "x "]) :=
  ⟨⟨by decide, by decide,
     (C6_job_link_dedup c6Net [] [some "x "]).1 c6Row "A" none
       ["https://j.example/1"] (by decide) (by decide)⟩,
   ⟨by decide, by decide,
     (C6_job_link_dedup c6Net [] [some "x "]).2.2.1 "x " (by decide) (by decide)⟩⟩

/-! ### C10: archive_file never overwrites -/

theorem digitChar_inj10 :
    ∀ n < 10, ∀ m < 10, Nat.digitChar n = Nat.digitChar m → n = m := by
  decide

theorem natReprAux_ne_nil : ∀ (fuel n : Nat), natReprAux (fuel + 1) n ≠ [] := by
  intro fuel n
  simp only [natReprAux]
  split
  · simp
  · intro h
    exact absurd (List.append_eq_nil.mp h).2 (by simp)

theorem natReprAux_inj (n : Nat) :
    ∀ (m fuel fuel2 : Nat), n < fuel → m < fuel2 →
      natReprAux fuel n = natReprAux fuel2 m → n = m := by
  induction n using Nat.strong_induction_on with
  | _ n IH =>
    intro m fuel fuel2 hn hm heq
    cases fuel with
    | zero => omega
    | succ f =>
      cases fuel2 with
      | zero => omega
      | succ f2 =>
        simp only [natReprAux] at heq
        by_cases hn10 : n < 10
        · by_cases hm10 : m < 10
          · rw [if_pos hn10, if_pos hm10] at heq
            exact digitChar_inj10 n hn10 m hm10 (List.cons.inj heq).1
          · rw [if_pos hn10, if_neg hm10] at heq
            have hlen := congrArg List.length heq
            have hne : natReprAux f2 (m / 10) ≠ [] := by
              have hf2 : ∃ g, f2 = g + 1 := ⟨f2 - 1, by omega⟩
              obtain ⟨g, rfl⟩ := hf2
              exact natReprAux_ne_nil g (m / 10)
            have hpos : 0 < (natReprAux f2 (m / 10)).length :=
              List.length_pos.mpr hne
            rw [List.length_singleton, List.length_append, List.length_singleton] at hlen
            omega
        · by_cases hm10 : m < 10
          · rw [if_neg hn10, if_pos hm10] at heq
            have hlen := congrArg List.length heq
            have hne : natReprAux f (n / 10) ≠ [] := by
              have hf : ∃ g, f = g + 1 := ⟨f - 1, by omega⟩
              obtain ⟨g, rfl⟩ := hf
              exact natReprAux_ne_nil g (n / 10)
            have hpos : 0 < (natReprAux f (n / 10)).length :=
              List.length_pos.mpr hne
            rw [List.length_append, List.length_singleton, List.length_singleton] at hlen
            omega
          · rw [if_neg hn10, if_neg hm10] at heq
            obtain ⟨h1, h2⟩ := List.append_inj' heq rfl
            have hmod : n % 10 = m % 10 :=
              digitChar_inj10 (n % 10) (Nat.mod_lt n (by omega)) (m % 10)
                (Nat.mod_lt m (by omega)) (List.cons.inj h2).1
            have hdivlt : n / 10 < n := Nat.div_lt_self (by omega) (by omega)
            have hdiv : n / 10 = m / 10 :=
              IH (n / 10) hdivlt (m / 10) f f2 (by omega)
                (by
                  have : m / 10 < m := Nat.div_lt_self (by omega) (by omega)
                  omega) h1
            have e1 := Nat.div_add_mod n 10
            have e2 := Nat.div_add_mod m 10
            omega

theorem natRepr_inj {n m : Nat} (h : natRepr n = natRepr m) : n = m :=
  natReprAux_inj n m (n + 1) (m + 1) (Nat.lt_succ_self n) (Nat.lt_succ_self m) h

theorem natRepr_ne_nil (n : Nat) : natRepr n ≠ [] := natReprAux_ne_nil n n

theorem splitextC_append (b : Chars) : (splitextC b).1 ++ (splitextC b).2 = b := by
  unfold splitextC
  split
  · simp
  · split
    · simp
    · simp [List.take_append_drop]

theorem archiveCandidate_inj (base : Chars) {k j : Nat}
    (h : archiveCandidate base k = archiveCandidate base j) : k = j := by
  have hd : (archiveCandidate base k).data = (archiveCandidate base j).data := by rw [h]
  have hba : ((splitextC base).1 ++ (splitextC base).2).length = base.length := by
    rw [splitextC_append]
  rw [List.length_append] at hba
  cases k with
  | zero =>
    cases j with
    | zero => rfl
    | succ b =>
      exfalso
      have hd0 : "Archive/".data ++ base =
          "Archive/".data ++ (splitextC base).1 ++
            ('_' :: natRepr (b + 1)) ++ (splitextC base).2 := hd
      have hlen := congrArg List.length hd0
      simp only [List.length_append, List.length_cons] at hlen
      have hpos : 0 < (natRepr (b + 1)).length :=
        List.length_pos.mpr (natRepr_ne_nil (b + 1))
      omega
  | succ a =>
    cases j with
    | zero =>
      exfalso
      have hd0 : "Archive/".data ++ (splitextC base).1 ++
            ('_' :: natRepr (a + 1)) ++ (splitextC base).2 =
          "Archive/".data ++ base := hd
      have hlen := congrArg List.length hd0
      simp only [List.length_append, List.length_cons] at hlen
      have hpos : 0 < (natRepr (a + 1)).length :=
        List.length_pos.mpr (natRepr_ne_nil (a + 1))
      omega
    | succ b =>
      have hd0 : "Archive/".data ++ (splitextC base).1 ++
            ('_' :: natRepr (a + 1)) ++ (splitextC base).2 =
          "Archive/".data ++ (splitextC base).1 ++
            ('_' :: natRepr (b + 1)) ++ (splitextC base).2 := hd
      rw [List.append_assoc, List.append_assoc ("Archive/".data),
        List.append_assoc, List.append_assoc ("Archive/".data)] at hd0
      have h1 := List.append_cancel_left hd0
      have h2 := List.append_cancel_left h1
      have h3 := List.append_cancel_right h2
      have h4 : natRepr (a + 1) = natRepr (b + 1) := (List.cons.inj h3).2
      have := natRepr_inj h4
      omega

theorem archiveSearch_none (fs : List String) (base : Chars) :
    ∀ (fuel k : Nat), archiveSearch fs base fuel k = none →
      ∀ j, j < fuel → fs.contains (archiveCandidate base (k + j)) = true
  | 0, _, _, j, hj => absurd hj (Nat.not_lt_zero j)
  | fuel + 1, k, h, j, hj => by
    simp only [archiveSearch] at h
    by_cases hc : fs.contains (archiveCandidate base k) = true
    · rw [if_pos hc] at h
      cases j with
      | zero => simpa using hc
      | succ i =>
        have h2 := archiveSearch_none fs base fuel (k + 1) h i (by omega)
        have h3 : k + 1 + i = k + (i + 1) := by omega
        rw [h3] at h2
        exact h2
    · rw [if_neg hc] at h
      exact Option.noConfusion h

theorem archiveSearch_some (fs : List String) (base : Chars) :
    ∀ (fuel k : Nat) (d : String), archiveSearch fs base fuel k = some d →
      fs.contains d = false ∧
      ∃ i, d = archiveCandidate base (k + i) ∧
        ∀ j, j < i → fs.contains (archiveCandidate base (k + j)) = true
  | 0, _, _, h => Option.noConfusion h
  | fuel + 1, k, d, h => by
    simp only [archiveSearch] at h
    by_cases hc : fs.contains (archiveCandidate base k) = true
    · rw [if_pos hc] at h
      obtain ⟨h1, i, h2, h3⟩ := archiveSearch_some fs base fuel (k + 1) d h
      refine ⟨h1, i + 1, ?_, ?_⟩
      · have he : k + (i + 1) = k + 1 + i := by omega
        rw [he]
        exact h2
      · intro j hj
        cases j with
        | zero => simpa using hc
        | succ j2 =>
          have h4 := h3 j2 (by omega)
          have he : k + 1 + j2 = k + (j2 + 1) := by omega
          rw [he] at h4
          exact h4
    · rw [if_neg hc] at h
      obtain rfl : archiveCandidate base k = d := Option.some.inj h
      refine ⟨?_, 0, by rw [Nat.add_zero], fun j hj => absurd hj (Nat.not_lt_zero j)⟩
      simp only [Bool.not_eq_true] at hc
      exact hc

theorem archiveSearch_total (fs : List String) (base : Chars) :
    archiveSearch fs base (fs.length + 1) 0 ≠ none := by
  intro h
  have hall : ∀ j, j < fs.length + 1 →
      fs.contains (archiveCandidate base j) = true := by
    intro j hj
    have h2 := archiveSearch_none fs base (fs.length + 1) 0 h j hj
    simpa using h2
  have hinj : Function.Injective (archiveCandidate base) :=
    fun a b hab => archiveCandidate_inj base hab
  have hnodup : ((List.range (fs.length + 1)).map (archiveCandidate base)).Nodup :=
    (List.nodup_range _).map hinj
  have hsub : ((List.range (fs.length + 1)).map (archiveCandidate base)) ⊆ fs := by
    intro x hx
    obtain ⟨j, hj, rfl⟩ := List.mem_map.mp hx
    exact List.elem_iff.mp (hall j (List.mem_range.mp hj))
  have hle := (List.subperm_of_subset hnodup hsub).length_le
  rw [List.length_map, List.length_range] at hle
  omega

/-- **C10**: archive_file never overwrites an existing archived file.  On
every file set and source path it succeeds, the chosen destination is not
among the existing paths, it is the first free candidate `Archive/base`,
`Archive/name_1.ext`, `Archive/name_2.ext`, … (every earlier candidate
already exists), and the move is exactly source-to-destination: the result
state adds the destination and removes the source. -/
theorem C10_archive_no_overwrite (fs : List String) (fp : String) :
    (archive_file fs fp).isSome = true ∧
    ∀ (dest : String) (fs2 : List String), archive_file fs fp = some (dest, fs2) →
      fs.contains dest = false ∧ fs2 = dest :: fs.erase fp ∧
      ∃ k, dest = archiveCandidate (basenameC fp.data) k ∧
        ∀ j, j < k → fs.contains (archiveCandidate (basenameC fp.data) j) = true := by
  constructor
  · unfold archive_file
    rcases hs : archiveSearch fs (basenameC fp.data) (fs.length + 1) 0 with _ | d
    · exact absurd hs (archiveSearch_total fs (basenameC fp.data))
    · rfl
  · intro dest fs2 h
    unfold archive_file at h
    split at h
    next d heq =>
      have h3 := Option.some.inj h
      rw [Prod.mk.injEq] at h3
      obtain ⟨hd, hf⟩ := h3
      subst hd
      subst hf
      obtain ⟨hc, i, hi, hall⟩ :=
        archiveSearch_some fs (basenameC fp.data) (fs.length + 1) 0 d heq
      refine ⟨hc, rfl, i, ?_, ?_⟩
      · simpa using hi
      · intro j hj
        have h5 := hall j hj
        simpa using h5
    next heq => exact Option.noConfusion h

theorem C10_witness :
    (["Archive/a.csv", "Archive/a_1.csv"] : List String).contains "Archive/a_2.csv"
        = false ∧
    ["Archive/a_2.csv", "Archive/a.csv", "Archive/a_1.csv"] =
      "Archive/a_2.csv" ::
        (["Archive/a.csv", "Archive/a_1.csv"] : List String).erase "dl/a.csv" ∧
    ∃ k, "Archive/a_2.csv" = archiveCandidate (basenameC ("dl/a.csv" : String).data) k ∧
      ∀ j, j < k → (["Archive/a.csv", "Archive/a_1.csv"] : List String).contains
        (archiveCandidate (basenameC ("dl/a.csv" : String).data) j) = true :=
  (C10_archive_no_overwrite ["Archive/a.csv", "Archive/a_1.csv"] "dl/a.csv").2
    "Archive/a_2.csv" ["Archive/a_2.csv", "Archive/a.csv", "Archive/a_1.csv"]
    (by decide)

/-! ### C7: final merge/dedup of leadsExtract.main -/

theorem mergeRow_length : ∀ (c p : List (Option String)), c.length = p.length →
    (mergeRow c p).length = c.length
  | [], _, _ => rfl
  | _ :: _, [], h => by simp at h
  | c :: cs, p :: ps, h => by
    simp only [mergeRow, List.length_cons]
    rw [mergeRow_length cs ps (by simpa using h)]

theorem mergeRow_getElem : ∀ (a p : List (Option String)), a.length = p.length →
    ∀ j, j < a.length →
      ((mergeRow a p)[j]?).join = Option.or (a[j]?.join) (p[j]?.join)
  | [], _, _, j, hj => by simp at hj
  | _ :: _, [], h, _, _ => by simp at h
  | a :: as, p :: ps, h, 0, _ => by
    simp only [mergeRow, List.getElem?_cons_zero, Option.join]
    rcases a with - | v
    · rfl
    · rfl
  | a :: as, p :: ps, h, j + 1, hj => by
    simp only [mergeRow, List.getElem?_cons_succ]
    exact mergeRow_getElem as ps (by simpa using h) j (by simpa using hj)

theorem foldr_mergeRow_length (ncols : Nat) :
    ∀ (h : List (List (Option String))), (∀ r ∈ h, r.length = ncols) →
      (h.foldr (fun r p => mergeRow r p) (List.replicate ncols none)).length = ncols
  | [], _ => List.length_replicate ncols none
  | r :: rs, hl => by
    simp only [List.foldr_cons]
    rw [mergeRow_length r _ ?_, hl r (List.mem_cons_self r rs)]
    rw [foldr_mergeRow_length ncols rs (fun x hx => hl x (List.mem_cons_of_mem r hx)),
      hl r (List.mem_cons_self r rs)]

theorem foldr_mergeRow_col (ncols : Nat) :
    ∀ (h : List (List (Option String))), (∀ r ∈ h, r.length = ncols) →
      ∀ j, j < ncols →
      ((h.foldr (fun r p => mergeRow r p) (List.replicate ncols none))[j]?).join =
        colFirst j h
  | [], _, j, hj => by
    simp only [List.foldr_nil, colFirst]
    rw [List.getElem?_replicate, if_pos hj]
    rfl
  | r :: rs, hl, j, hj => by
    simp only [List.foldr_cons, colFirst]
    rw [mergeRow_getElem r _ ?hlen j ?hjr]
    case hlen =>
      rw [hl r (List.mem_cons_self r rs),
        foldr_mergeRow_length ncols rs (fun x hx => hl x (List.mem_cons_of_mem r hx))]
    case hjr => rw [hl r (List.mem_cons_self r rs)]; exact hj
    rw [foldr_mergeRow_col ncols rs (fun x hx => hl x (List.mem_cons_of_mem r hx)) j hj]

theorem ffillAux_length (prev : List (Option String)) :
    ∀ (g : List (List (Option String))), (ffillAux prev g).length = g.length
  | [] => rfl
  | r :: rs => by
    simp only [ffillAux, List.length_cons]
    rw [ffillAux_length (mergeRow r prev) rs]

theorem ffillAux_rows_length (ncols : Nat) :
    ∀ (g : List (List (Option String))) (prev : List (Option String)),
      prev.length = ncols → (∀ r ∈ g, r.length = ncols) →
      ∀ r ∈ ffillAux prev g, r.length = ncols
  | [], _, _, _, _, hr => absurd hr (List.not_mem_nil _)
  | r :: rs, prev, hp, hg, x, hx => by
    simp only [ffillAux] at hx
    have hm : (mergeRow r prev).length = ncols := by
      rw [mergeRow_length r prev (by rw [hp, hg r (List.mem_cons_self r rs)])]
      exact hg r (List.mem_cons_self r rs)
    rcases List.mem_cons.mp hx with h | h
    · rw [h]; exact hm
    · exact ffillAux_rows_length ncols rs (mergeRow r prev) hm
        (fun y hy => hg y (List.mem_cons_of_mem r hy)) x h

theorem ffillAux_getLast (prev : List (Option String)) :
    ∀ (g : List (List (Option String))), g ≠ [] →
      (ffillAux prev g).getLast? =
        some (g.foldl (fun p r => mergeRow r p) prev)
  | [], h => absurd rfl h
  | [r], _ => rfl
  | r :: s :: ss, _ => by
    simp only [ffillAux, List.foldl_cons]
    rw [getLast?_cons_ne _ _ (by
      intro hnil
      simp [ffillAux] at hnil)]
    exact ffillAux_getLast (mergeRow r prev) (s :: ss) (by simp)

theorem bfill_head (ncols : Nat) (h : List (List (Option String))) (hne : h ≠ []) :
    (bfill ncols h).head? =
      some (h.foldr (fun r p => mergeRow r p) (List.replicate ncols none)) := by
  unfold bfill
  rw [List.head?_reverse]
  rw [ffillAux_getLast _ _ (by simpa using hne)]
  rw [List.foldl_reverse]

theorem colFirst_ffillAux (ncols : Nat) :
    ∀ (g : List (List (Option String))) (prev : List (Option String)),
      prev.length = ncols → (∀ r ∈ g, r.length = ncols) →
      ∀ j, j < ncols →
      colFirst j (ffillAux prev g) =
        match g with
        | [] => none
        | r :: rs => Option.or (r[j]?.join) (Option.or (prev[j]?.join) (colFirst j rs))
  | [], _, _, _, _, _ => rfl
  | r :: rs, prev, hp, hg, j, hj => by
    simp only [ffillAux, colFirst]
    have hrl : r.length = ncols := hg r (List.mem_cons_self r rs)
    have hml : (mergeRow r prev).length = ncols := by
      rw [mergeRow_length r prev (by rw [hp, hrl])]; exact hrl
    rw [mergeRow_getElem r prev (by rw [hp, hrl]) j (by rw [hrl]; exact hj)]
    rw [colFirst_ffillAux ncols rs (mergeRow r prev) hml
      (fun y hy => hg y (List.mem_cons_of_mem r hy)) j hj]
    rcases rs with - | ⟨s, ss⟩
    · simp only []
      rcases hrj : r[j]?.join with - | v <;> rcases hpj : prev[j]?.join with - | w <;>
        simp [Option.or, colFirst]
    · simp only []
      rw [mergeRow_getElem r prev (by rw [hp, hrl]) j (by rw [hrl]; exact hj)]
      rcases hrj : r[j]?.join with - | v <;> rcases hpj : prev[j]?.join with - | w <;>
        simp [Option.or, colFirst]

theorem colFirst_ffill (ncols : Nat) (g : List (List (Option String)))
    (hg : ∀ r ∈ g, r.length = ncols) (j : Nat) (hj : j < ncols) :
    colFirst j (ffill ncols g) = colFirst j g := by
  unfold ffill
  rw [colFirst_ffillAux ncols g (List.replicate ncols none)
    (List.length_replicate ncols none) hg j hj]
  rcases g with - | ⟨r, rs⟩
  · rfl
  · simp only [colFirst]
    rw [List.getElem?_replicate, if_pos hj]
    rfl

theorem keptRow_cells_col (ncols : Nat) (e : String) (s : List LRow)
    (hlen : ∀ r ∈ s, r.cells.length = ncols)
    (hne : s.filter (fun r => r.email == some e) ≠ []) (j : Nat) (hj : j < ncols) :
    (keptRow ncols e s).cells[j]? =
      some (colFirst j
        ((s.filter (fun r => r.email == some e)).map (fun r => r.cells))) := by
  have hglen : ∀ x ∈ (s.filter (fun r => r.email == some e)).map (fun r => r.cells),
      x.length = ncols := by
    intro x hx
    obtain ⟨r, hr, rfl⟩ := List.mem_map.mp hx
    exact hlen r (List.mem_of_mem_filter hr)
  have hmapne : (s.filter (fun r => r.email == some e)).map (fun r => r.cells) ≠ [] := by
    intro h
    exact hne (List.map_eq_nil_iff.mp h)
  have hffne : ffill ncols ((s.filter (fun r => r.email == some e)).map
      (fun r => r.cells)) ≠ [] := by
    intro h
    have h2 := ffillAux_length (List.replicate ncols none)
      ((s.filter (fun r => r.email == some e)).map (fun r => r.cells))
    rw [show ffillAux (List.replicate ncols none)
        ((s.filter (fun r => r.email == some e)).map (fun r => r.cells)) =
        ffill ncols ((s.filter (fun r => r.email == some e)).map (fun r => r.cells))
      from rfl, h] at h2
    exact hmapne (List.length_eq_zero.mp h2.symm)
  have hfflen : ∀ r ∈ ffill ncols ((s.filter (fun r => r.email == some e)).map
      (fun r => r.cells)), r.length = ncols :=
    ffillAux_rows_length ncols _ _ (List.length_replicate ncols none) hglen
  have hh := bfill_head ncols _ hffne
  have hcells : (keptRow ncols e s).cells =
      (ffill ncols ((s.filter (fun r => r.email == some e)).map
        (fun r => r.cells))).foldr (fun r p => mergeRow r p)
        (List.replicate ncols none) := by
    show (bfill ncols (ffill ncols ((s.filter (fun r => r.email == some e)).map
        (fun r => r.cells)))).headD (List.replicate ncols none) = _
    rcases hb : bfill ncols (ffill ncols ((s.filter (fun r => r.email == some e)).map
        (fun r => r.cells))) with - | ⟨x, xs⟩
    · rw [hb] at hh
      exact Option.noConfusion hh
    · rw [hb] at hh
      rw [hb, List.headD_cons]
      rw [List.head?_cons] at hh
      exact Option.some.inj hh
  have hFlen := foldr_mergeRow_length ncols _ hfflen
  have hcol := foldr_mergeRow_col ncols _ hfflen j hj
  rw [colFirst_ffill ncols _ hglen j hj] at hcol
  rw [hcells]
  have hjF : j < ((ffill ncols ((s.filter (fun r => r.email == some e)).map
      (fun r => r.cells))).foldr (fun r p => mergeRow r p)
      (List.replicate ncols none)).length := by rw [hFlen]; exact hj
  obtain ⟨v, hv⟩ : ∃ v, ((ffill ncols ((s.filter (fun r => r.email == some e)).map
      (fun r => r.cells))).foldr (fun r p => mergeRow r p)
      (List.replicate ncols none))[j]? = some v :=
    ⟨_, List.getElem?_eq_getElem hjF⟩
  rw [hv] at hcol
  simp only [Option.join, Option.some_bind, id_eq] at hcol
  rw [hv, hcol]

theorem colFirst_map_cells (j : Nat) :
    ∀ (l : List LRow),
      colFirst j (l.map (fun r => r.cells)) =
        match l.filter (fun r => (r.cells[j]?.join).isSome) with
        | [] => none
        | r :: _ => r.cells[j]?.join
  | [] => rfl
  | r :: ls => by
    simp only [List.map_cons, colFirst]
    rw [List.filter_cons]
    rcases hv : r.cells[j]?.join with - | v
    · exact colFirst_map_cells j ls
    · show (some v).or (colFirst j (ls.map (fun r => r.cells))) = r.cells[j]?.join
      rw [hv]
      rfl

theorem insertLe_perm {α : Type} (le : α → α → Bool) (x : α) :
    ∀ (l : List α), (insertLe le x l).Perm (x :: l)
  | [] => List.Perm.refl _
  | y :: ys => by
    unfold insertLe
    split
    · exact List.Perm.refl _
    · exact ((insertLe_perm le x ys).cons y).trans (List.Perm.swap x y ys)

theorem sortLe_perm {α : Type} (le : α → α → Bool) :
    ∀ (l : List α), (sortLe le l).Perm l
  | [] => List.Perm.refl _
  | x :: xs =>
    (insertLe_perm le x (sortLe le xs)).trans ((sortLe_perm le xs).cons x)

theorem insertLe_sorted_rid (x : LRow) :
    ∀ (l : List LRow), l.Pairwise (fun a b => a.rid ≤ b.rid) →
      (insertLe (fun a b => decide (a.rid ≤ b.rid)) x l).Pairwise
        (fun a b => a.rid ≤ b.rid)
  | [], _ => List.pairwise_singleton _ x
  | y :: ys, h => by
    obtain ⟨hy, hys⟩ := List.pairwise_cons.mp h
    unfold insertLe
    by_cases hxy : x.rid ≤ y.rid
    · rw [if_pos (by simpa using hxy)]
      refine List.pairwise_cons.mpr ⟨?_, h⟩
      intro z hz
      rcases List.mem_cons.mp hz with rfl | hz2
      · exact hxy
      · exact le_trans hxy (hy z hz2)
    · rw [if_neg (by simpa using hxy)]
      refine List.pairwise_cons.mpr ⟨?_, insertLe_sorted_rid x ys hys⟩
      intro z hz
      rcases List.mem_cons.mp
          ((insertLe_perm (fun a b => decide (a.rid ≤ b.rid)) x ys).mem_iff.mp hz)
        with rfl | hz2
      · omega
      · exact hy z hz2

theorem sortById_sorted (rows : List LRow) :
    (sortById rows).Pairwise (fun a b => a.rid ≤ b.rid) := by
  unfold sortById
  induction rows with
  | nil => exact List.Pairwise.nil
  | cons r rs IH => exact insertLe_sorted_rid r _ IH

theorem sortById_perm (rows : List LRow) : (sortById rows).Perm rows :=
  sortLe_perm _ rows

theorem minIdRow_isSome : ∀ (m : List LRow), m ≠ [] → ∃ x, minIdRow m = some x
  | [], h => absurd rfl h
  | r :: rs, _ => by
    rcases hm : minIdRow rs with - | y
    · refine ⟨r, ?_⟩
      show (match minIdRow rs with
        | none => some r
        | some m => if r.rid ≤ m.rid then some r else some m) = some r
      rw [hm]
    · by_cases hle : r.rid ≤ y.rid
      · refine ⟨r, ?_⟩
        show (match minIdRow rs with
          | none => some r
          | some m => if r.rid ≤ m.rid then some r else some m) = some r
        rw [hm]
        show (if r.rid ≤ y.rid then some r else some y) = some r
        rw [if_pos hle]
      · refine ⟨y, ?_⟩
        show (match minIdRow rs with
          | none => some r
          | some m => if r.rid ≤ m.rid then some r else some m) = some y
        rw [hm]
        show (if r.rid ≤ y.rid then some r else some y) = some y
        rw [if_neg hle]

theorem minIdRow_mem : ∀ (m : List LRow) (x : LRow), minIdRow m = some x → x ∈ m
  | [], _, h => Option.noConfusion h
  | r :: rs, x, h => by
    have h0 : (match minIdRow rs with
      | none => some r
      | some m => if r.rid ≤ m.rid then some r else some m) = some x := h
    rcases hm : minIdRow rs with - | y
    · rw [hm] at h0
      have h1 : some r = some x := h0
      exact List.mem_cons.mpr (Or.inl (Option.some.inj h1).symm)
    · rw [hm] at h0
      have h1 : (if r.rid ≤ y.rid then some r else some y) = some x := h0
      by_cases hle : r.rid ≤ y.rid
      · rw [if_pos hle] at h1
        exact List.mem_cons.mpr (Or.inl (Option.some.inj h1).symm)
      · rw [if_neg hle] at h1
        rw [← Option.some.inj h1]
        exact List.mem_cons_of_mem r (minIdRow_mem rs y hm)

theorem minIdRow_le : ∀ (m : List LRow) (x : LRow), minIdRow m = some x →
    ∀ b ∈ m, x.rid ≤ b.rid
  | [], _, _, b, hb => absurd hb (List.not_mem_nil b)
  | r :: rs, x, h, b, hb => by
    have h0 : (match minIdRow rs with
      | none => some r
      | some m => if r.rid ≤ m.rid then some r else some m) = some x := h
    rcases hm : minIdRow rs with - | y
    · rw [hm] at h0
      have h1 : some r = some x := h0
      rw [← Option.some.inj h1]
      rcases List.mem_cons.mp hb with rfl | hb2
      · exact le_refl _
      · obtain ⟨z, hz⟩ := minIdRow_isSome rs (List.ne_nil_of_mem hb2)
        rw [hm] at hz
        exact Option.noConfusion hz
    · rw [hm] at h0
      have h1 : (if r.rid ≤ y.rid then some r else some y) = some x := h0
      by_cases hle : r.rid ≤ y.rid
      · rw [if_pos hle] at h1
        rw [← Option.some.inj h1]
        rcases List.mem_cons.mp hb with rfl | hb2
        · exact le_refl _
        · exact le_trans hle (minIdRow_le rs y hm b hb2)
      · rw [if_neg hle] at h1
        rw [← Option.some.inj h1]
        rcases List.mem_cons.mp hb with rfl | hb2
        · omega
        · exact minIdRow_le rs y hm b hb2

theorem minIdRow_eq_sorted_head (m l : List LRow)
    (hm : (m.map LRow.rid).Nodup) (hp : l.Perm m)
    (hs : l.Pairwise (fun a b => a.rid ≤ b.rid)) :
    minIdRow m = l.head? := by
  rcases l with - | ⟨a, l2⟩
  · rw [hp.symm.eq_nil]
    rfl
  · obtain ⟨x, hx⟩ := minIdRow_isSome m (by
      intro hnil
      rw [hnil] at hp
      exact List.cons_ne_nil a l2 hp.eq_nil)
    rw [hx, List.head?_cons]
    have hxm : x ∈ m := minIdRow_mem m x hx
    have ham : a ∈ m := hp.mem_iff.mp (List.mem_cons_self a l2)
    have hxa : x.rid ≤ a.rid := minIdRow_le m x hx a ham
    have hax : a.rid ≤ x.rid := by
      rcases List.mem_cons.mp (hp.mem_iff.mpr hxm) with rfl | hx2
      · exact le_refl _
      · exact (List.pairwise_cons.mp hs).1 x hx2
    have hinj := List.inj_on_of_nodup_map hm
    rw [hinj hxm ham (by omega : x.rid = a.rid)]

theorem dedupAcc_nodup :
    ∀ (l seen : List String), (dedupAcc seen l).Nodup ∧
      ∀ x ∈ dedupAcc seen l, x ∉ seen
  | [], _ => ⟨List.nodup_nil, fun x hx => absurd hx (List.not_mem_nil x)⟩
  | a :: l, seen => by
    obtain ⟨IH1a, IH2a⟩ := dedupAcc_nodup l seen
    obtain ⟨IH1b, IH2b⟩ := dedupAcc_nodup l (a :: seen)
    unfold dedupAcc
    by_cases hc : seen.contains a = true
    · rw [if_pos hc]
      exact ⟨IH1a, IH2a⟩
    · rw [if_neg hc]
      constructor
      · refine List.Nodup.cons ?_ IH1b
        intro hmem
        exact IH2b a hmem (List.mem_cons_self a seen)
      · intro x hx
        rcases List.mem_cons.mp hx with rfl | hx2
        · exact not_mem_of_contains_false (Bool.not_eq_true _ ▸ hc)
        · exact fun hxs => IH2b x hx2 (List.mem_cons_of_mem a hxs)

theorem dedupAcc_mem : ∀ (l seen : List String) (x : String),
    x ∈ dedupAcc seen l → x ∈ l
  | [], _, x, hx => absurd hx (List.not_mem_nil x)
  | a :: l, seen, x, hx => by
    unfold dedupAcc at hx
    by_cases hc : seen.contains a = true
    · rw [if_pos hc] at hx
      exact List.mem_cons_of_mem a (dedupAcc_mem l seen x hx)
    · rw [if_neg hc] at hx
      rcases List.mem_cons.mp hx with rfl | hx2
      · exact List.mem_cons_self x l
      · exact List.mem_cons_of_mem a (dedupAcc_mem l (a :: seen) x hx2)

theorem groupKeys_nodup (s : List LRow) : (groupKeys s).Nodup := by
  unfold groupKeys
  exact ((sortLe_perm leStr _).nodup_iff).mpr
    (dedupAcc_nodup (s.filterMap (fun r => r.email)) []).1

theorem groupKeys_mem (s : List LRow) (e : String) (he : e ∈ groupKeys s) :
    ∃ r ∈ s, r.email = some e := by
  unfold groupKeys at he
  have h2 := dedupAcc_mem _ _ e ((sortLe_perm leStr _).mem_iff.mp he)
  obtain ⟨r, hr, hre⟩ := List.mem_filterMap.mp h2
  exact ⟨r, hr, hre⟩

theorem reassignAux_map_rid : ∀ (k : Nat) (l : List LRow),
    (reassignAux k l).map LRow.rid = List.range' k l.length
  | _, [] => rfl
  | k, r :: rs => by
    simp only [reassignAux, List.map_cons, List.length_cons, List.range'_succ]
    rw [reassignAux_map_rid (k + 1) rs]

theorem reassignAux_length (k : Nat) (l : List LRow) :
    (reassignAux k l).length = l.length := by
  have h := congrArg List.length (reassignAux_map_rid k l)
  rw [List.length_map, List.length_range'] at h
  exact h

theorem reassignAux_mem : ∀ (k : Nat) (l : List LRow) (r2 : LRow),
    r2 ∈ reassignAux k l → ∃ r ∈ l, r2.email = r.email ∧ r2.cells = r.cells
  | _, [], r2, h => absurd h (List.not_mem_nil r2)
  | k, r :: rs, r2, h => by
    rcases List.mem_cons.mp h with rfl | h2
    · exact ⟨r, List.mem_cons_self r rs, rfl, rfl⟩
    · obtain ⟨r3, hr3, he, hc⟩ := reassignAux_mem (k + 1) rs r2 h2
      exact ⟨r3, List.mem_cons_of_mem r hr3, he, hc⟩

theorem reassignAux_map_email : ∀ (k : Nat) (l : List LRow),
    (reassignAux k l).map LRow.email = l.map LRow.email
  | _, [] => rfl
  | k, r :: rs => by
    simp only [reassignAux, List.map_cons]
    rw [reassignAux_map_email (k + 1) rs]

theorem specCellValue_eq (rows : List LRow) (e : String) (j : Nat)
    (hnodup : (rows.map LRow.rid).Nodup) :
    specCellValue rows e j =
      match (sortById rows).filter
          (fun r => r.email == some e && (r.cells[j]?.join).isSome) with
      | [] => none
      | r :: _ => r.cells[j]?.join := by
  unfold specCellValue
  have hperm : ((sortById rows).filter
      (fun r => r.email == some e && (r.cells[j]?.join).isSome)).Perm
      (rows.filter (fun r => r.email == some e && (r.cells[j]?.join).isSome)) :=
    (sortById_perm rows).filter _
  have hsorted : ((sortById rows).filter
      (fun r => r.email == some e && (r.cells[j]?.join).isSome)).Pairwise
      (fun a b => a.rid ≤ b.rid) :=
    (sortById_sorted rows).sublist (List.filter_sublist _)
  have hnd : ((rows.filter
      (fun r => r.email == some e && (r.cells[j]?.join).isSome)).map
      LRow.rid).Nodup :=
    hnodup.sublist (List.Sublist.map LRow.rid (List.filter_sublist rows))
  have hmin := minIdRow_eq_sorted_head _ _ hnd hperm hsorted
  rcases hfs : (sortById rows).filter
      (fun r => r.email == some e && (r.cells[j]?.join).isSome) with - | ⟨r, rest⟩
  · rw [hfs] at hmin
    rw [hmin, hfs]
    rfl
  · rw [hfs] at hmin
    rw [hmin, List.head?_cons, hfs]

theorem keptRow_cells_spec (ncols : Nat) (rows : List LRow) (e : String)
    (hnodup : (rows.map LRow.rid).Nodup)
    (hlen : ∀ r ∈ rows, r.cells.length = ncols)
    (hne : (sortById rows).filter (fun r => r.email == some e) ≠ [])
    (j : Nat) (hj : j < ncols) :
    (keptRow ncols e (sortById rows)).cells[j]? =
      some (specCellValue rows e j) := by
  have hlen_s : ∀ r ∈ sortById rows, r.cells.length = ncols :=
    fun r hr => hlen r ((sortById_perm rows).mem_iff.mp hr)
  rw [keptRow_cells_col ncols e (sortById rows) hlen_s hne j hj]
  rw [colFirst_map_cells j]
  rw [List.filter_filter]
  rw [List.filter_congr (fun a _ => Bool.and_comm ((a.cells[j]?.join).isSome)
    (a.email == some e))]
  rw [specCellValue_eq rows e j hnodup]

/-- **C7**: after the final merge of leadsExtract.main (email column present),
the output has at most one row per email — its emails are pairwise distinct —
each kept row's cells carry, per column, the value of the smallest-id row of
that email's group having a non-null value there (the effect of
`sort_values("id")` + `groupby("email").apply(g.ffill().bfill().iloc[0])`
under pairwise-distinct ids and rectangular cells), and the id column of the
output is reassigned to the contiguous sequence 1..n. -/
theorem C7_final_merge (ncols : Nat) (rows : List LRow)
    (hnodup : (rows.map LRow.rid).Nodup)
    (hlen : ∀ r ∈ rows, r.cells.length = ncols) :
    ((leadsFinalMerge ncols rows).map LRow.email).Nodup ∧
    (leadsFinalMerge ncols rows).map LRow.rid =
      List.range' 1 (leadsFinalMerge ncols rows).length ∧
    ∀ r ∈ leadsFinalMerge ncols rows, ∀ e, r.email = some e →
      ∀ j, j < ncols → r.cells[j]? = some (specCellValue rows e j) := by
  refine ⟨?_, ?_, ?_⟩
  · unfold leadsFinalMerge reassignIds
    rw [reassignAux_map_email]
    unfold mergeDedup
    rw [List.map_map]
    exact (groupKeys_nodup (sortById rows)).map
      (fun a b hab => Option.some.inj hab)
  · unfold leadsFinalMerge reassignIds
    rw [reassignAux_map_rid, reassignAux_length]
  · intro r2 hr2 e he j hj
    unfold leadsFinalMerge reassignIds at hr2
    obtain ⟨r, hr, hemail, hcells⟩ := reassignAux_mem 1 _ r2 hr2
    unfold mergeDedup at hr
    obtain ⟨e2, he2, rfl⟩ := List.mem_map.mp hr
    have hee : (some e2 : Option String) = some e := by
      rw [← he, hemail]
      rfl
    obtain rfl := Option.some.inj hee
    rw [hcells]
    obtain ⟨r3, hr3, hre3⟩ := groupKeys_mem (sortById rows) e2 he2
    have hne : (sortById rows).filter (fun r => r.email == some e2) ≠ [] := by
      apply List.ne_nil_of_mem (a := r3)
      apply List.mem_filter.mpr
      refine ⟨hr3, ?_⟩
      rw [hre3]
      simp
    exact keptRow_cells_spec ncols rows e2 hnodup hlen hne j hj

theorem C7_witness :
    ((c7Rows.map LRow.rid).Nodup ∧ (∀ r ∈ c7Rows, r.cells.length = 2)) ∧
    ((leadsFinalMerge 2 c7Rows).map LRow.email).Nodup ∧
    (leadsFinalMerge 2 c7Rows).map LRow.rid =
      List.range' 1 (leadsFinalMerge 2 c7Rows).length ∧
    ∀ r ∈ leadsFinalMerge 2 c7Rows, ∀ e, r.email = some e →
      ∀ j, j < 2 → r.cells[j]? = some (specCellValue c7Rows e j) :=
  ⟨⟨by decide, by decide⟩, C7_final_merge 2 c7Rows (by decide) (by decide)⟩
